import Mathlib

/-!
Verification development for the dag_executor repository.

The repository generates random weighted DAGs (`weighted_dag.py`) and executes
them concurrently (`workflow_executor.py`).  This file gives a shallow
embedding of the relevant code:

* `DiGraph` models the networkx `DiGraph` as used by the code: an
  insertion-ordered node list and an insertion-ordered edge list carrying
  integer durations.  `addEdge` mirrors `G.add_edge(u, v, duration=d)`
  (adding missing endpoints, updating the duration when the edge exists),
  `removeEdge` mirrors `G.remove_edge`.
* `reachF` computes the set of nodes reachable from a node (what
  `nx.descendants(G, s) | set([s])` computes), and `isAcyclic` mirrors
  `nx.is_directed_acyclic_graph`.
* The generation pipeline of `WeightedDAG` is embedded with its random
  draws and Python-set iteration orders taken as explicit parameters, so
  theorems quantify over every possible randomness.
* The asyncio executor of `WorkflowExecutor` is embedded as a small-step
  transition system; each atomic block of `_run_node_task` (delimited by
  its await points; the `async with self.lock` bodies contain no awaits and
  are atomic) is one step, and the scheduler interleaving is the choice of
  which live task steps next.
-/

set_option maxHeartbeats 1000000

/-- Node labels after relabelling: `node i` stands for the string label
produced by the lambda in `nx.relabel_nodes`, and `virt` stands for the
reserved label used by `_get_source_node` for the synthetic source. -/
inductive NodeId where
  | node (i : Nat)
  | virt
deriving DecidableEq, Repr

/-- Directed graph with integer edge durations, modelling the
networkx `DiGraph` state used by the repository: nodes in insertion order,
edges in insertion order, each edge `(u, v, d)` meaning an edge from `u`
to `v` with attribute `duration = d`. -/
structure DiGraph (α : Type) where
  nodes : List α
  edges : List (α × α × Nat)

namespace DiGraph

variable {α : Type} [DecidableEq α]

/-- Adding a node, as networkx does implicitly in `add_edge`: a no-op when
the node is already present, otherwise appended. -/
def addNode (G : DiGraph α) (v : α) : DiGraph α :=
  if v ∈ G.nodes then G else ⟨G.nodes ++ [v], G.edges⟩

/-- Membership test for a directed edge key, ignoring the duration. -/
def hasEdge (G : DiGraph α) (u v : α) : Bool :=
  G.edges.any (fun e => decide (e.1 = u ∧ e.2.1 = v))

/-- Model of `G.add_edge(u, v, duration=d)`: missing endpoints are added as
nodes; if the edge key already exists its duration attribute is replaced,
otherwise the edge is appended. -/
def addEdge (G : DiGraph α) (u v : α) (d : Nat) : DiGraph α :=
  let G1 := (G.addNode u).addNode v
  if G1.hasEdge u v then
    ⟨G1.nodes, G1.edges.map (fun e => if e.1 = u ∧ e.2.1 = v then (u, v, d) else e)⟩
  else
    ⟨G1.nodes, G1.edges ++ [(u, v, d)]⟩

/-- Model of `G.remove_edge(u, v)`. -/
def removeEdge (G : DiGraph α) (u v : α) : DiGraph α :=
  ⟨G.nodes, G.edges.filter (fun e => decide ¬(e.1 = u ∧ e.2.1 = v))⟩

/-- Successor list of a node (`G.successors`), in edge insertion order. -/
def succList (G : DiGraph α) (u : α) : List α :=
  G.edges.filterMap (fun e => if e.1 = u then some e.2.1 else none)

/-- Predecessor list of a node (`G.predecessors`), in edge insertion order. -/
def predList (G : DiGraph α) (v : α) : List α :=
  G.edges.filterMap (fun e => if e.2.1 = v then some e.1 else none)

/-- In-degree of a node (`G.in_degree`). -/
def inDegB (G : DiGraph α) (v : α) : Nat :=
  (G.edges.filter (fun e => decide (e.2.1 = v))).length

/-- Out-degree of a node (`G.out_degree`). -/
def outDegB (G : DiGraph α) (u : α) : Nat :=
  (G.edges.filter (fun e => decide (e.1 = u))).length

/-- Edge relation: there is a directed edge from `u` to `v`. -/
def adj (G : DiGraph α) (u v : α) : Prop :=
  ∃ d, (u, v, d) ∈ G.edges

theorem hasEdge_iff_adj (G : DiGraph α) (u v : α) :
    G.hasEdge u v = true ↔ G.adj u v := by
  unfold hasEdge adj
  rw [List.any_eq_true]
  constructor
  · rintro ⟨⟨a, b, d⟩, hmem, hdec⟩
    simp only [decide_eq_true_eq] at hdec
    exact ⟨d, by simpa [hdec.1, hdec.2] using hmem⟩
  · rintro ⟨d, hmem⟩
    exact ⟨(u, v, d), hmem, by simp⟩

theorem mem_succList_iff (G : DiGraph α) (u v : α) :
    v ∈ G.succList u ↔ G.adj u v := by
  unfold succList adj
  rw [List.mem_filterMap]
  constructor
  · rintro ⟨⟨a, b, d⟩, hmem, hsome⟩
    by_cases h : a = u
    · subst h
      simp at hsome
      subst hsome
      exact ⟨d, hmem⟩
    · simp [h] at hsome
  · rintro ⟨d, hmem⟩
    exact ⟨(u, v, d), hmem, by simp⟩

theorem mem_predList_iff (G : DiGraph α) (u v : α) :
    u ∈ G.predList v ↔ G.adj u v := by
  unfold predList adj
  rw [List.mem_filterMap]
  constructor
  · rintro ⟨⟨a, b, d⟩, hmem, hsome⟩
    by_cases h : b = v
    · subst h
      simp at hsome
      subst hsome
      exact ⟨d, hmem⟩
    · simp [h] at hsome
  · rintro ⟨d, hmem⟩
    exact ⟨(u, v, d), hmem, by simp⟩

theorem inDegB_eq_zero_iff (G : DiGraph α) (v : α) :
    G.inDegB v = 0 ↔ ∀ u, ¬ G.adj u v := by
  unfold inDegB
  rw [List.length_eq_zero, List.filter_eq_nil]
  constructor
  · rintro h u ⟨d, hmem⟩
    have := h _ hmem
    simp at this
  · rintro h ⟨a, b, d⟩ hmem
    simp only [decide_eq_true_eq]
    intro hbv
    exact h a ⟨d, by simpa [hbv] using hmem⟩

theorem outDegB_eq_zero_iff (G : DiGraph α) (u : α) :
    G.outDegB u = 0 ↔ ∀ v, ¬ G.adj u v := by
  unfold outDegB
  rw [List.length_eq_zero, List.filter_eq_nil]
  constructor
  · rintro h v ⟨d, hmem⟩
    have := h _ hmem
    simp at this
  · rintro h ⟨a, b, d⟩ hmem
    simp only [decide_eq_true_eq]
    intro hau
    exact h b ⟨d, by simpa [hau] using hmem⟩

/-- One expansion step of the reachability closure: the set together with
all successors of its members. -/
def nstep (G : DiGraph α) (s : Finset α) : Finset α :=
  s ∪ s.biUnion (fun u => (G.succList u).toFinset)

/-- Iterated expansion. -/
def closeF (G : DiGraph α) : Nat → Finset α → Finset α
  | 0, s => s
  | n + 1, s => closeF G n (G.nstep s)

/-- All edge targets, an upper bound for what closure can add. -/
def targetsF (G : DiGraph α) : Finset α :=
  (G.edges.map (fun e => e.2.1)).toFinset

/-- Set of nodes reachable from `u` (including `u`): the embedding of
`nx.descendants(G, u) | set([u])`. -/
def reachF (G : DiGraph α) (u : α) : Finset α :=
  closeF G (1 + (G.targetsF).card) {u}

theorem subset_nstep (G : DiGraph α) (s : Finset α) : s ⊆ G.nstep s :=
  Finset.subset_union_left

theorem subset_closeF (G : DiGraph α) : ∀ (n : Nat) (s : Finset α), s ⊆ closeF G n s := by
  intro n
  induction n with
  | zero => intro s; exact subset_rfl
  | succ k ih =>
    intro s
    exact (G.subset_nstep s).trans (ih (G.nstep s))

theorem closeF_of_fixed (G : DiGraph α) :
    ∀ (n : Nat) (s : Finset α), G.nstep s = s → closeF G n s = s := by
  intro n
  induction n with
  | zero => intro s _; rfl
  | succ k ih =>
    intro s hfix
    show closeF G k (G.nstep s) = s
    rw [hfix]
    exact ih s hfix

theorem nstep_subset_of_subset (G : DiGraph α) {s U : Finset α}
    (hsU : s ⊆ U) (htU : G.targetsF ⊆ U) : G.nstep s ⊆ U := by
  intro x hx
  rcases Finset.mem_union.mp hx with h | h
  · exact hsU h
  · rcases Finset.mem_biUnion.mp h with ⟨u, _, hxs⟩
    apply htU
    rcases (mem_succList_iff G u x).mp (List.mem_toFinset.mp hxs) with ⟨d, hmem⟩
    exact List.mem_toFinset.mpr (List.mem_map.mpr ⟨(u, x, d), hmem, rfl⟩)

theorem closeF_saturates (G : DiGraph α) :
    ∀ (fuel : Nat) (s U : Finset α), s ⊆ U → G.targetsF ⊆ U →
      U.card + 1 ≤ fuel + s.card → G.nstep (closeF G fuel s) = closeF G fuel s := by
  intro fuel
  induction fuel with
  | zero =>
    intro s U hsU _ hcard
    exact absurd (Finset.card_le_card hsU) (by omega)
  | succ k ih =>
    intro s U hsU htU hcard
    by_cases hfix : G.nstep s = s
    · have h1 : closeF G (k + 1) s = s := closeF_of_fixed G (k + 1) s hfix
      rw [h1]; exact hfix
    · have hsub : s ⊆ G.nstep s := G.subset_nstep s
      have hss : s ⊂ G.nstep s := Finset.ssubset_iff_subset_ne.mpr ⟨hsub, Ne.symm hfix⟩
      have hlt : s.card < (G.nstep s).card := Finset.card_lt_card hss
      show G.nstep (closeF G k (G.nstep s)) = closeF G k (G.nstep s)
      exact ih (G.nstep s) U (G.nstep_subset_of_subset hsU htU) htU (by omega)

theorem nstep_reachF_eq (G : DiGraph α) (u : α) :
    G.nstep (G.reachF u) = G.reachF u := by
  apply closeF_saturates G (1 + (G.targetsF).card) {u} (insert u G.targetsF)
  · intro x hx
    rw [Finset.mem_singleton] at hx
    exact Finset.mem_insert.mpr (Or.inl hx)
  · exact Finset.subset_insert u G.targetsF
  · have := Finset.card_insert_le u G.targetsF
    simp only [Finset.card_singleton]
    omega

theorem mem_self_reachF (G : DiGraph α) (u : α) : u ∈ G.reachF u :=
  G.subset_closeF _ {u} (Finset.mem_singleton_self u)

theorem reach_of_mem_closeF (G : DiGraph α) :
    ∀ (n : Nat) (s : Finset α) (v : α), v ∈ closeF G n s →
      ∃ w ∈ s, Relation.ReflTransGen G.adj w v := by
  intro n
  induction n with
  | zero =>
    intro s v hv
    exact ⟨v, hv, Relation.ReflTransGen.refl⟩
  | succ k ih =>
    intro s v hv
    rcases ih (G.nstep s) v hv with ⟨w, hw, hreach⟩
    rcases Finset.mem_union.mp hw with h | h
    · exact ⟨w, h, hreach⟩
    · rcases Finset.mem_biUnion.mp h with ⟨x, hx, hws⟩
      have hadj : G.adj x w := (mem_succList_iff G x w).mp (List.mem_toFinset.mp hws)
      exact ⟨x, hx, Relation.ReflTransGen.head hadj hreach⟩

theorem mem_reachF_of_reach (G : DiGraph α) {u v : α}
    (h : Relation.ReflTransGen G.adj u v) : v ∈ G.reachF u := by
  induction h with
  | refl => exact G.mem_self_reachF u
  | tail hab hbc ih =>
    rename_i b c
    have hfix := G.nstep_reachF_eq u
    rw [← hfix]
    apply Finset.mem_union.mpr
    right
    apply Finset.mem_biUnion.mpr
    exact ⟨b, ih, List.mem_toFinset.mpr ((mem_succList_iff G b c).mpr hbc)⟩

theorem mem_reachF_iff (G : DiGraph α) (u v : α) :
    v ∈ G.reachF u ↔ Relation.ReflTransGen G.adj u v := by
  constructor
  · intro h
    rcases G.reach_of_mem_closeF _ {u} v h with ⟨w, hw, hreach⟩
    rw [Finset.mem_singleton] at hw
    rw [hw] at hreach
    exact hreach
  · exact G.mem_reachF_of_reach

/-- Embedding of `nx.is_directed_acyclic_graph`: no directed cycle, i.e.
no edge whose source is reachable from its target. -/
def isAcyclic (G : DiGraph α) : Bool :=
  !(G.edges.any (fun e => decide (e.1 ∈ G.reachF e.2.1)))

theorem isAcyclic_iff (G : DiGraph α) :
    G.isAcyclic = true ↔ ∀ u, ¬ Relation.TransGen G.adj u u := by
  unfold isAcyclic
  rw [Bool.not_eq_true', List.any_eq_false]
  constructor
  · intro h u hcyc
    rcases Relation.TransGen.head'_iff.mp hcyc with ⟨b, ⟨d, hmem⟩, hreach⟩
    have h2 := h (u, b, d) hmem
    simp only [decide_eq_true_eq] at h2
    exact h2 (G.mem_reachF_of_reach hreach)
  · rintro h ⟨a, b, d⟩ hmem
    simp only [decide_eq_true_eq]
    intro hreach
    exact h a (Relation.TransGen.head'_iff.mpr
      ⟨b, ⟨d, hmem⟩, (G.mem_reachF_iff b a).mp hreach⟩)

end DiGraph

namespace DiGraph

variable {α : Type} [DecidableEq α]

theorem nodes_addNode (G : DiGraph α) (v : α) :
    (G.addNode v).nodes = if v ∈ G.nodes then G.nodes else G.nodes ++ [v] := by
  unfold addNode
  by_cases h : v ∈ G.nodes <;> simp [h]

theorem edges_addNode (G : DiGraph α) (v : α) : (G.addNode v).edges = G.edges := by
  unfold addNode
  by_cases h : v ∈ G.nodes <;> simp [h]

theorem mem_nodes_addNode (G : DiGraph α) (v x : α) :
    x ∈ (G.addNode v).nodes ↔ x ∈ G.nodes ∨ x = v := by
  rw [nodes_addNode]
  by_cases h : v ∈ G.nodes
  · simp only [if_pos h]
    constructor
    · exact Or.inl
    · rintro (hx | rfl)
      · exact hx
      · exact h
  · simp [if_neg h]

theorem addNode_of_mem (G : DiGraph α) {v : α} (h : v ∈ G.nodes) : G.addNode v = G := by
  unfold addNode
  simp [h]

theorem nodes_addEdge (G : DiGraph α) (u v : α) (d : Nat) :
    (G.addEdge u v d).nodes = ((G.addNode u).addNode v).nodes := by
  unfold addEdge
  by_cases h : ((G.addNode u).addNode v).hasEdge u v <;> simp [h]

theorem mem_nodes_addEdge (G : DiGraph α) (u v x : α) (d : Nat) :
    x ∈ (G.addEdge u v d).nodes ↔ x ∈ G.nodes ∨ x = u ∨ x = v := by
  rw [nodes_addEdge, mem_nodes_addNode, mem_nodes_addNode]
  tauto

theorem addEdge_of_mem_nodes (G : DiGraph α) {u v : α} (d : Nat)
    (hu : u ∈ G.nodes) (hv : v ∈ G.nodes) :
    (G.addEdge u v d).nodes = G.nodes := by
  rw [nodes_addEdge, addNode_of_mem G hu, addNode_of_mem _ hv]

theorem edges_addEdge_pos (G : DiGraph α) (u v : α) (d : Nat)
    (h : ((G.addNode u).addNode v).hasEdge u v = true) :
    (G.addEdge u v d).edges
      = G.edges.map (fun e => if e.1 = u ∧ e.2.1 = v then (u, v, d) else e) := by
  unfold addEdge
  simp only [h, if_true, edges_addNode]

theorem edges_addEdge_neg (G : DiGraph α) (u v : α) (d : Nat)
    (h : ¬ ((G.addNode u).addNode v).hasEdge u v = true) :
    (G.addEdge u v d).edges = G.edges ++ [(u, v, d)] := by
  unfold addEdge
  simp only [h, Bool.false_eq_true, if_false, edges_addNode]

theorem adj_addEdge (G : DiGraph α) (u v x y : α) (d : Nat) :
    (G.addEdge u v d).adj x y ↔ G.adj x y ∨ (x = u ∧ y = v) := by
  by_cases h : ((G.addNode u).addNode v).hasEdge u v = true
  · have hrw := edges_addEdge_pos G u v d h
    have hadj : G.adj u v := by
      rcases (hasEdge_iff_adj _ u v).mp h with ⟨d1, hm1⟩
      rw [edges_addNode, edges_addNode] at hm1
      exact ⟨d1, hm1⟩
    unfold adj
    rw [hrw]
    constructor
    · rintro ⟨d0, hmem⟩
      rw [List.mem_map] at hmem
      rcases hmem with ⟨⟨a, b, e⟩, hmem, heq⟩
      by_cases hk : a = u ∧ b = v
      · rw [if_pos hk] at heq
        rcases Prod.mk.injEq .. ▸ heq with ⟨h1, h2⟩
        rcases Prod.mk.injEq .. ▸ h2 with ⟨h2, _⟩
        exact Or.inr ⟨h1.symm, h2.symm⟩
      · rw [if_neg hk] at heq
        rcases Prod.mk.injEq .. ▸ heq with ⟨h1, h2⟩
        rcases Prod.mk.injEq .. ▸ h2 with ⟨h2, _⟩
        subst h1; subst h2
        exact Or.inl ⟨e, hmem⟩
    · rintro (⟨d0, hmem⟩ | ⟨rfl, rfl⟩)
      · by_cases hk : x = u ∧ y = v
        · rcases hadj with ⟨d1, hm1⟩
          refine ⟨d, List.mem_map.mpr ⟨(u, v, d1), hm1, ?_⟩⟩
          rw [if_pos ⟨rfl, rfl⟩, hk.1, hk.2]
        · refine ⟨d0, List.mem_map.mpr ⟨(x, y, d0), hmem, ?_⟩⟩
          rw [if_neg hk]
      · rcases hadj with ⟨d1, hm1⟩
        refine ⟨d, List.mem_map.mpr ⟨(x, y, d1), hm1, ?_⟩⟩
        rw [if_pos ⟨rfl, rfl⟩]
  · have hrw := edges_addEdge_neg G u v d h
    unfold adj
    rw [hrw]
    constructor
    · rintro ⟨d0, hmem⟩
      rw [List.mem_append] at hmem
      rcases hmem with hmem | hmem
      · exact Or.inl ⟨d0, hmem⟩
      · rcases List.mem_singleton.mp hmem with heq
        rcases Prod.mk.injEq .. ▸ heq with ⟨h1, h2⟩
        rcases Prod.mk.injEq .. ▸ h2 with ⟨h2, _⟩
        exact Or.inr ⟨h1, h2⟩
    · rintro (⟨d0, hmem⟩ | ⟨rfl, rfl⟩)
      · exact ⟨d0, List.mem_append.mpr (Or.inl hmem)⟩
      · exact ⟨d, List.mem_append.mpr (Or.inr (List.mem_singleton.mpr rfl))⟩

theorem reflTransGen_union_single {β : Type} (r : β → β → Prop) (u v a b : β) :
    Relation.ReflTransGen (fun x y => r x y ∨ (x = u ∧ y = v)) a b ↔
      Relation.ReflTransGen r a b ∨
        (Relation.ReflTransGen r a u ∧ Relation.ReflTransGen r v b) := by
  constructor
  · intro h
    induction h with
    | refl => exact Or.inl Relation.ReflTransGen.refl
    | tail hac hcd ih =>
      rcases hcd with hr | ⟨rfl, rfl⟩
      · rcases ih with h1 | ⟨h1, h2⟩
        · exact Or.inl (h1.tail hr)
        · exact Or.inr ⟨h1, h2.tail hr⟩
      · rcases ih with h1 | ⟨h1, _⟩
        · exact Or.inr ⟨h1, Relation.ReflTransGen.refl⟩
        · exact Or.inr ⟨h1, Relation.ReflTransGen.refl⟩
  · intro h
    have hmono : ∀ x y, r x y → (r x y ∨ (x = u ∧ y = v)) := fun x y hxy => Or.inl hxy
    rcases h with h | ⟨h1, h2⟩
    · exact Relation.ReflTransGen.mono hmono h
    · have ha := Relation.ReflTransGen.mono hmono h1
      have hb := Relation.ReflTransGen.mono hmono h2
      exact (ha.tail (Or.inr ⟨rfl, rfl⟩)).trans hb

theorem transGen_lt {β : Type} (r : β → β → Prop) (f : β → Nat)
    (h : ∀ x y, r x y → f x < f y) {a b : β}
    (hab : Relation.TransGen r a b) : f a < f b := by
  induction hab with
  | single h1 => exact h _ _ h1
  | tail _ h2 ih => exact lt_trans ih (h _ _ h2)

/-- A graph whose edges all increase a rank function is acyclic.  Used for
the step-2 graph, whose edges follow the random permutation order. -/
theorem isAcyclic_of_rank (G : DiGraph α) (f : α → Nat)
    (h : ∀ x y, G.adj x y → f x < f y) : G.isAcyclic = true := by
  rw [isAcyclic_iff]
  intro u hcyc
  exact lt_irrefl (f u) (transGen_lt G.adj f h hcyc)

theorem adj_eq_union_single (G : DiGraph α) (u v : α) (d : Nat) :
    (G.addEdge u v d).adj = (fun x y => G.adj x y ∨ (x = u ∧ y = v)) := by
  funext x y
  exact propext (adj_addEdge G u v x y d)

/-- Acyclicity of the graph after `add_edge(u, v)`: given the graph was
acyclic, the new graph is acyclic exactly when `u` is not reachable from
`v`.  This is the property the repair pass checks via
`nx.is_directed_acyclic_graph`. -/
theorem isAcyclic_addEdge_iff (G : DiGraph α) (u v : α) (d : Nat)
    (hG : G.isAcyclic = true) :
    (G.addEdge u v d).isAcyclic = true ↔ ¬ Relation.ReflTransGen G.adj v u := by
  rw [isAcyclic_iff, adj_eq_union_single]
  rw [isAcyclic_iff] at hG
  constructor
  · intro h hreach
    apply h v
    have hmono : ∀ x y, G.adj x y → (G.adj x y ∨ (x = u ∧ y = v)) := fun x y hxy => Or.inl hxy
    exact Relation.TransGen.tail' (Relation.ReflTransGen.mono hmono hreach) (Or.inr ⟨rfl, rfl⟩)
  · intro hnr x hcyc
    rcases Relation.TransGen.head'_iff.mp hcyc with ⟨y, hxy, hyx⟩
    rw [reflTransGen_union_single] at hyx
    rcases hxy with hr | ⟨rfl, rfl⟩
    · rcases hyx with h1 | ⟨h1, h2⟩
      · exact hG x (Relation.TransGen.head' hr h1)
      · exact hnr (h2.trans ((Relation.ReflTransGen.single hr).trans h1))
    · rcases hyx with h1 | ⟨h1, _⟩
      · exact hnr h1
      · exact hnr h1

/-- Ancestors of `v` among the graph nodes: nodes with a nonempty directed
path to `v`.  Used only as a termination measure for DAG induction. -/
def ancF (G : DiGraph α) (v : α) : Finset α :=
  (G.nodes.toFinset).filter
    (fun x => (G.edges.any (fun e => decide (e.1 = x) && decide (v ∈ G.reachF e.2.1))) = true)

theorem mem_ancF (G : DiGraph α) (v x : α) :
    x ∈ G.ancF v ↔ x ∈ G.nodes ∧ Relation.TransGen G.adj x v := by
  unfold ancF
  rw [Finset.mem_filter, List.mem_toFinset, List.any_eq_true]
  constructor
  · rintro ⟨hx, ⟨a, b, d⟩, hmem, hdec⟩
    rw [Bool.and_eq_true, decide_eq_true_eq, decide_eq_true_eq] at hdec
    refine ⟨hx, Relation.TransGen.head'_iff.mpr ⟨b, ⟨d, ?_⟩, (G.mem_reachF_iff b v).mp hdec.2⟩⟩
    rw [← hdec.1]
    exact hmem
  · rintro ⟨hx, htg⟩
    rcases Relation.TransGen.head'_iff.mp htg with ⟨y, ⟨d, hmem⟩, hreach⟩
    refine ⟨hx, (x, y, d), hmem, ?_⟩
    rw [Bool.and_eq_true, decide_eq_true_eq, decide_eq_true_eq]
    exact ⟨rfl, G.mem_reachF_of_reach hreach⟩

/-- Induction over an acyclic graph: to prove `P` of every node it is
enough to derive `P v` from `P` of all direct predecessors of `v`. -/
theorem dag_induction (G : DiGraph α) (hacyc : G.isAcyclic = true)
    (hclosed : ∀ e ∈ G.edges, e.1 ∈ G.nodes)
    (P : α → Prop)
    (hstep : ∀ v ∈ G.nodes, (∀ p, G.adj p v → P p) → P v) :
    ∀ v ∈ G.nodes, P v := by
  have hssub : ∀ v p, v ∈ G.nodes → G.adj p v → G.ancF p ⊂ G.ancF v := by
    intro v p hv hadj
    have hpn : p ∈ G.nodes := by
      rcases hadj with ⟨d, hmem⟩
      exact hclosed (p, v, d) hmem
    constructor
    · intro x hx
      rcases (mem_ancF G p x).mp hx with ⟨hxn, htg⟩
      exact (mem_ancF G v x).mpr ⟨hxn, htg.tail hadj⟩
    · intro hsub
      have hp : p ∈ G.ancF v := (mem_ancF G v p).mpr ⟨hpn, Relation.TransGen.single hadj⟩
      have hpp := (mem_ancF G p p).mp (hsub hp)
      exact (isAcyclic_iff G).mp hacyc p hpp.2
  have key : ∀ (k : Nat) (v : α), v ∈ G.nodes → (G.ancF v).card ≤ k → P v := by
    intro k
    induction k with
    | zero =>
      intro v hv hcard
      apply hstep v hv
      intro p hadj
      exfalso
      have hlt := Finset.card_lt_card (hssub v p hv hadj)
      omega
    | succ k ih =>
      intro v hv hcard
      apply hstep v hv
      intro p hadj
      have hpn : p ∈ G.nodes := by
        rcases hadj with ⟨d, hmem⟩
        exact hclosed (p, v, d) hmem
      have hlt := Finset.card_lt_card (hssub v p hv hadj)
      exact ih p hpn (by omega)
  intro v hv
  exact key (G.ancF v).card v hv le_rfl

theorem exists_adj_of_inDegB_ne_zero (G : DiGraph α) {v : α} (h : G.inDegB v ≠ 0) :
    ∃ u, G.adj u v := by
  by_contra hno
  push_neg at hno
  exact h ((inDegB_eq_zero_iff G v).mpr hno)

/-- Every finite nonempty acyclic graph has a node of in-degree 0. -/
theorem exists_source_node (G : DiGraph α) (hacyc : G.isAcyclic = true)
    (hclosed : ∀ e ∈ G.edges, e.1 ∈ G.nodes)
    (hne : G.nodes ≠ []) :
    ∃ z ∈ G.nodes, G.inDegB z = 0 := by
  rcases List.exists_mem_of_ne_nil G.nodes hne with ⟨v0, hv0⟩
  refine dag_induction G hacyc hclosed (fun _ => ∃ z ∈ G.nodes, G.inDegB z = 0) ?_ v0 hv0
  intro v hv hp
  by_cases h : G.inDegB v = 0
  · exact ⟨v, hv, h⟩
  · rcases exists_adj_of_inDegB_ne_zero G h with ⟨u, hadj⟩
    exact hp u hadj

/-- If the only in-degree-0 node of an acyclic graph is `src`, then every
node is reachable from `src`. -/
theorem reachable_of_unique_source (G : DiGraph α) (hacyc : G.isAcyclic = true)
    (hclosed : ∀ e ∈ G.edges, e.1 ∈ G.nodes) (src : α)
    (huniq : ∀ z ∈ G.nodes, G.inDegB z = 0 → z = src) :
    ∀ v ∈ G.nodes, Relation.ReflTransGen G.adj src v := by
  refine dag_induction G hacyc hclosed (fun v => Relation.ReflTransGen G.adj src v) ?_
  intro v hv hp
  by_cases h : G.inDegB v = 0
  · rw [huniq v hv h]
  · rcases exists_adj_of_inDegB_ne_zero G h with ⟨u, hadj⟩
    exact (hp u hadj).tail hadj

/-- Reversed graph, used to transfer in-degree facts to out-degree facts. -/
def reverseG (G : DiGraph α) : DiGraph α :=
  ⟨G.nodes, G.edges.map (fun e => (e.2.1, e.1, e.2.2))⟩

theorem adj_reverseG (G : DiGraph α) (x y : α) :
    (reverseG G).adj x y ↔ G.adj y x := by
  unfold reverseG adj
  constructor
  · rintro ⟨d, hmem⟩
    rw [List.mem_map] at hmem
    rcases hmem with ⟨⟨a, b, e⟩, hmem, heq⟩
    rcases Prod.mk.injEq .. ▸ heq with ⟨h1, h2⟩
    rcases Prod.mk.injEq .. ▸ h2 with ⟨h2, h3⟩
    subst h1; subst h2; subst h3
    exact ⟨e, hmem⟩
  · rintro ⟨d, hmem⟩
    exact ⟨d, List.mem_map.mpr ⟨(y, x, d), hmem, rfl⟩⟩

theorem isAcyclic_reverseG (G : DiGraph α) (hacyc : G.isAcyclic = true) :
    (reverseG G).isAcyclic = true := by
  rw [isAcyclic_iff]
  have hadj : (reverseG G).adj = Function.swap G.adj := by
    funext x y
    exact propext ((adj_reverseG G x y).trans Iff.rfl)
  rw [hadj]
  intro u hcyc
  exact (isAcyclic_iff G).mp hacyc u (Relation.transGen_swap.mp hcyc)

theorem length_filter_map {β γ : Type} (f : β → γ) (p : γ → Bool) (l : List β) :
    ((l.map f).filter p).length = (l.filter (fun x => p (f x))).length := by
  induction l with
  | nil => rfl
  | cons x t ih =>
    simp only [List.map_cons, List.filter_cons]
    cases h : p (f x) <;> simp [h, ih]

theorem inDegB_reverseG (G : DiGraph α) (v : α) :
    (reverseG G).inDegB v = G.outDegB v := by
  unfold reverseG inDegB outDegB
  exact length_filter_map (fun e => (e.2.1, e.1, e.2.2)) (fun e => decide (e.2.1 = v)) G.edges

/-- Every finite nonempty acyclic graph has a node of out-degree 0 (a sink). -/
theorem exists_sink_node (G : DiGraph α) (hacyc : G.isAcyclic = true)
    (hclosedT : ∀ e ∈ G.edges, e.2.1 ∈ G.nodes)
    (hne : G.nodes ≠ []) :
    ∃ z ∈ G.nodes, G.outDegB z = 0 := by
  have hclosedR : ∀ e ∈ (reverseG G).edges, e.1 ∈ (reverseG G).nodes := by
    rintro ⟨a, b, d⟩ hmem
    unfold reverseG at hmem
    rw [List.mem_map] at hmem
    rcases hmem with ⟨⟨x, y, e⟩, hmem, heq⟩
    rcases Prod.mk.injEq .. ▸ heq with ⟨h1, _⟩
    subst h1
    exact hclosedT (x, y, e) hmem
  rcases exists_source_node (reverseG G) (isAcyclic_reverseG G hacyc) hclosedR hne
    with ⟨z, hz, hdeg⟩
  rw [inDegB_reverseG] at hdeg
  exact ⟨z, hz, hdeg⟩

end DiGraph

/-! ## Embedding of WeightedDAG generation (`weighted_dag.py`)

Randomness and Python-set iteration orders are explicit parameters:
`rnd i j` is the value of the `random.random()` call for the ordered pair
`(i, j)` of step 2, `dur2 i j` the matching `random.randint(1, 10)` draw,
`dur3 k` the `k`-th `randint` draw of the repair pass, `durV k` the draw
for the `k`-th virtual-source edge, `ordering` the result of
`random.shuffle`, and `pickU` / `pickR` the iteration orders of the Python
sets `unreachable` / `reachable`. -/

/-- Parameters of one run of `WeightedDAG.__init__`. -/
structure GenParams where
  n : Nat
  p : ℚ
  rnd : Nat → Nat → ℚ
  dur2 : Nat → Nat → Nat
  dur3 : Nat → Nat
  durV : Nat → Nat
  ordering : List Nat
  pickU : Finset Nat → List Nat
  pickR : Finset Nat → List Nat

/-- The ordered pairs `(i, j)` visited by the nested loops of step 2:
`for i in range(n): for j in range(i+1, n)`. -/
def stepTwoPairs (n : Nat) : List (Nat × Nat) :=
  (List.range n).flatMap (fun i => ((List.range n).filter (fun j => decide (i < j))).map (fun j => (i, j)))

/-- One iteration of the step-2 inner loop body:
`if random.random() < p: G.add_edge(ordering[i], ordering[j], duration=randint(1,10))`. -/
def addPairEdge (pp : GenParams) (G : DiGraph Nat) (pr : Nat × Nat) : DiGraph Nat :=
  if pp.rnd pr.1 pr.2 < pp.p then
    G.addEdge (pp.ordering.getD pr.1 0) (pp.ordering.getD pr.2 0) (pp.dur2 pr.1 pr.2)
  else G

/-- Steps 1 and 2 of `_generate_connected_dag`: the graph holding the
shuffled nodes and the random forward edges. -/
def baseGraph (pp : GenParams) : DiGraph Nat :=
  (stepTwoPairs pp.n).foldl (addPairEdge pp) ⟨pp.ordering, []⟩

/-- The inner repair loop over candidate targets, for one unreachable
`node`.  Mirrors lines 48-59 of `weighted_dag.py` and records the graph
after every `add_edge` / `remove_edge` call in `snaps`.  Returns the
final graph, the updated draw counter, the snapshots, and the `inserted`
flag. -/
def spliceAttempts (dur3 : Nat → Nat) (node : Nat) :
    DiGraph Nat → Nat → List (DiGraph Nat) → List Nat →
      DiGraph Nat × Nat × List (DiGraph Nat) × Bool
  | G, cnt, snaps, [] => (G, cnt, snaps, false)
  | G, cnt, snaps, t :: rest =>
    let Ga := G.addEdge node t (dur3 cnt)
    if Ga.isAcyclic then (Ga, cnt + 1, snaps ++ [Ga], true)
    else
      let Gr := Ga.removeEdge node t
      let Gb := Gr.addEdge t node (dur3 (cnt + 1))
      if Gb.isAcyclic then (Gb, cnt + 2, snaps ++ [Ga, Gr, Gb], true)
      else
        spliceAttempts dur3 node (Gb.removeEdge t node) (cnt + 2)
          (snaps ++ [Ga, Gr, Gb, Gb.removeEdge t node]) rest

/-- The outer repair loop over the unreachable nodes (lines 46-62).
`iters` records the graph after each completed outer iteration. -/
def repairLoop (dur3 : Nat → Nat) (pickR : Finset Nat → List Nat) :
    DiGraph Nat → Nat → Finset Nat → List (DiGraph Nat) → List (DiGraph Nat) → List Nat →
      DiGraph Nat × Nat × Finset Nat × List (DiGraph Nat) × List (DiGraph Nat)
  | G, cnt, reach, snaps, iters, [] => (G, cnt, reach, snaps, iters)
  | G, cnt, reach, snaps, iters, node :: rest =>
    match spliceAttempts dur3 node G cnt snaps (pickR reach) with
    | (G2, cnt2, snaps2, inserted) =>
      repairLoop dur3 pickR G2 cnt2 (if inserted then insert node reach else reach)
        snaps2 (iters ++ [G2]) rest

/-- The whole `_generate_connected_dag` body before relabelling: returns
the repaired graph together with the full list of mutation snapshots and
the list of per-iteration committed graphs. -/
def genConnectedNat (pp : GenParams) :
    DiGraph Nat × List (DiGraph Nat) × List (DiGraph Nat) :=
  let G := baseGraph pp
  let reach0 : Finset Nat := G.reachF (pp.ordering.getD 0 0)
  let unreach : Finset Nat := G.nodes.toFinset \ reach0
  match repairLoop pp.dur3 pp.pickR G 0 reach0 [G] [G] (pp.pickU unreach) with
  | (G2, _, _, snaps, iters) => (G2, snaps, iters)

/-- Relabelling of a graph along a node map (`nx.relabel_nodes`). -/
def mapGraph {α β : Type} (f : α → β) (G : DiGraph α) : DiGraph β :=
  ⟨G.nodes.map f, G.edges.map (fun e => (f e.1, f e.2.1, e.2.2))⟩

/-- Adding the virtual-source edges, one per natural source, in the list
order of `sources` (lines 78-79); the `k`-th edge uses the `k`-th
`randint` draw. -/
def addVirtualEdges (durV : Nat → Nat) (G : DiGraph NodeId) (sources : List NodeId) :
    DiGraph NodeId :=
  (sources.enum).foldl (fun g pr => g.addEdge NodeId.virt pr.2 (durV pr.1)) G

/-- The natural sources, in node insertion order (line 72). -/
def naturalSources (G : DiGraph NodeId) : List NodeId :=
  G.nodes.filter (fun v => decide (G.inDegB v = 0))

/-- Embedding of `_get_source_node`: returns the (possibly extended)
graph and the resolved source label. -/
def getSourceNode (durV : Nat → Nat) (G : DiGraph NodeId) : DiGraph NodeId × NodeId :=
  let sources := naturalSources G
  if sources.length = 1 then (G, sources.headD NodeId.virt)
  else (addVirtualEdges durV G sources, NodeId.virt)

/-- The full generation pipeline of `WeightedDAG.__init__` (graph
generation followed by source resolution), producing the final graph and
the resolved source. -/
def generateDAG (pp : GenParams) : DiGraph NodeId × NodeId :=
  getSourceNode pp.durV (mapGraph NodeId.node (genConnectedNat pp).1)

/-- All intermediate graphs of `_generate_connected_dag` in the Nat
world: the step-2 graph and the graph after every single
`add_edge` / `remove_edge` call of the repair pass. -/
def generationSnaps (pp : GenParams) : List (DiGraph Nat) :=
  (genConnectedNat pp).2.1

/-- The committed intermediate graphs: the step-2 graph and the graph at
the end of each completed repair iteration. -/
def generationIters (pp : GenParams) : List (DiGraph Nat) :=
  (genConnectedNat pp).2.2

/-- Well-formedness hypotheses tying the parameters to what the Python
runtime guarantees: the shuffle is a permutation of `range(n)`, and each
set iteration enumerates exactly the set, each element once. -/
structure GenWF (pp : GenParams) : Prop where
  hord : pp.ordering.Perm (List.range pp.n)
  hU : ∀ s : Finset Nat, (pp.pickU s).Nodup ∧ ∀ x, x ∈ pp.pickU s ↔ x ∈ s
  hR : ∀ s : Finset Nat, (pp.pickR s).Nodup ∧ ∀ x, x ∈ pp.pickR s ↔ x ∈ s

/-! Embedding of `_to_schema` (adjacency-list export). -/

/-- Append of one `(successor, duration)` pair under key `u`, mirroring
`schema[u].append((v, duration))` on a `defaultdict(list)` with dict
insertion order. -/
def insertSchema (acc : List (NodeId × List (NodeId × Nat))) (u : NodeId)
    (pr : NodeId × Nat) : List (NodeId × List (NodeId × Nat)) :=
  match acc with
  | [] => [(u, [pr])]
  | (k, l) :: t => if k = u then (k, l ++ [pr]) :: t else (k, l) :: insertSchema t u pr

/-- Embedding of `_to_schema`: fold over the edges in insertion order. -/
def toSchema (G : DiGraph NodeId) : List (NodeId × List (NodeId × Nat)) :=
  G.edges.foldl (fun acc e => insertSchema acc e.1 (e.2.1, e.2.2)) []

/-- Flattening of the adjacency schema into `(node, successor, duration)`
triples. -/
def schemaTriples (s : List (NodeId × List (NodeId × Nat))) :
    List (NodeId × NodeId × Nat) :=
  s.flatMap (fun pr => pr.2.map (fun q => (pr.1, q.1, q.2)))

namespace DiGraph

variable {α : Type} [DecidableEq α]

theorem hasEdge_addNode (G : DiGraph α) (w u v : α) :
    (G.addNode w).hasEdge u v = G.hasEdge u v := by
  unfold hasEdge
  rw [edges_addNode]

theorem hasEdge_eq_false_iff (G : DiGraph α) (u v : α) :
    G.hasEdge u v = false ↔ ¬ G.adj u v := by
  rw [Bool.eq_false_iff, Ne, hasEdge_iff_adj]

/-- Edge-endpoint closure, stated on the adjacency relation. -/
def WFadj (G : DiGraph α) : Prop :=
  ∀ x y, G.adj x y → x ∈ G.nodes ∧ y ∈ G.nodes

theorem WFadj.srcClosed {G : DiGraph α} (h : G.WFadj) :
    ∀ e ∈ G.edges, e.1 ∈ G.nodes := by
  rintro ⟨a, b, d⟩ he
  exact (h a b ⟨d, he⟩).1

theorem WFadj.tgtClosed {G : DiGraph α} (h : G.WFadj) :
    ∀ e ∈ G.edges, e.2.1 ∈ G.nodes := by
  rintro ⟨a, b, d⟩ he
  exact (h a b ⟨d, he⟩).2

theorem WFadj.addEdge {G : DiGraph α} (h : G.WFadj) {u v : α} (d : Nat)
    (hu : u ∈ G.nodes) (hv : v ∈ G.nodes) : (G.addEdge u v d).WFadj := by
  intro x y hxy
  rw [adj_addEdge] at hxy
  have hnodes := addEdge_of_mem_nodes G d hu hv
  rw [hnodes]
  rcases hxy with hxy | ⟨rfl, rfl⟩
  · exact h x y hxy
  · exact ⟨hu, hv⟩

theorem adj_removeEdge_imp (G : DiGraph α) (u v x y : α)
    (h : (G.removeEdge u v).adj x y) : G.adj x y := by
  rcases h with ⟨d, hmem⟩
  exact ⟨d, (List.mem_filter.mp hmem).1⟩

theorem WFadj.removeEdge {G : DiGraph α} (h : G.WFadj) (u v : α) :
    (G.removeEdge u v).WFadj := by
  intro x y hxy
  exact h x y (adj_removeEdge_imp G u v x y hxy)

/-- Rolling back a freshly inserted edge restores the graph exactly;
this is what happens in the repair pass when a probe edge creates a
cycle. -/
theorem removeEdge_addEdge (G : DiGraph α) (u v : α) (d : Nat)
    (hu : u ∈ G.nodes) (hv : v ∈ G.nodes) (h : G.hasEdge u v = false) :
    (G.addEdge u v d).removeEdge u v = G := by
  have h2 : ¬ ((G.addNode u).addNode v).hasEdge u v = true := by
    rw [hasEdge_addNode, hasEdge_addNode, h]
    simp
  have hedges := edges_addEdge_neg G u v d h2
  have hnodes : (G.addEdge u v d).nodes = G.nodes := addEdge_of_mem_nodes G d hu hv
  unfold removeEdge
  rw [hedges, hnodes, List.filter_append]
  have h3 : G.edges.filter (fun e => decide ¬(e.1 = u ∧ e.2.1 = v)) = G.edges := by
    apply List.filter_eq_self.mpr
    intro e he
    rw [decide_eq_true_eq]
    intro hk
    rw [hasEdge_eq_false_iff] at h
    apply h
    rcases e with ⟨a, b, dd⟩
    rcases hk with ⟨h4, h5⟩
    subst h4; subst h5
    exact ⟨dd, he⟩
  have h4 : [(u, v, d)].filter (fun e => decide ¬(e.1 = u ∧ e.2.1 = v)) = [] := by
    simp
  rw [h3, h4, List.append_nil]

theorem isAcyclic_congr {G G2 : DiGraph α} (h : G.adj = G2.adj) :
    (G.isAcyclic = true ↔ G2.isAcyclic = true) := by
  rw [isAcyclic_iff, isAcyclic_iff, h]

/-- Re-adding an edge that already exists (a duration update) does not
change acyclicity. -/
theorem isAcyclic_addEdge_of_adj (G : DiGraph α) {u v : α} (d : Nat) (h : G.adj u v) :
    ((G.addEdge u v d).isAcyclic = true) ↔ (G.isAcyclic = true) := by
  apply isAcyclic_congr
  funext x y
  apply propext
  rw [adj_addEdge]
  constructor
  · rintro (hxy | ⟨rfl, rfl⟩)
    · exact hxy
    · exact h
  · exact Or.inl

/-- If no edge enters `v0`, nothing other than `v0` reaches `v0`. -/
theorem not_reach_of_no_in (G : DiGraph α) (v0 : α) (hno : ∀ a, ¬ G.adj a v0)
    (x : α) (hx : x ≠ v0) : ¬ Relation.ReflTransGen G.adj x v0 := by
  intro h
  rcases h.cases_tail with h1 | ⟨c, _, hc⟩
  · exact hx h1.symm
  · exact hno c hc

/-- The edge keys (ordered endpoint pairs), in insertion order. -/
def keys (G : DiGraph α) : List (α × α) :=
  G.edges.map (fun e => (e.1, e.2.1))

theorem mem_keys_iff (G : DiGraph α) (u v : α) :
    (u, v) ∈ G.keys ↔ G.adj u v := by
  unfold keys adj
  rw [List.mem_map]
  constructor
  · rintro ⟨⟨a, b, d⟩, hmem, heq⟩
    rcases Prod.mk.injEq .. ▸ heq with ⟨h1, h2⟩
    subst h1; subst h2
    exact ⟨d, hmem⟩
  · rintro ⟨d, hmem⟩
    exact ⟨(u, v, d), hmem, rfl⟩

theorem keys_addEdge_pos (G : DiGraph α) (u v : α) (d : Nat)
    (h : ((G.addNode u).addNode v).hasEdge u v = true) :
    (G.addEdge u v d).keys = G.keys := by
  unfold keys
  rw [edges_addEdge_pos G u v d h, List.map_map]
  apply List.map_congr_left
  intro e _
  by_cases hk : e.1 = u ∧ e.2.1 = v
  · simp only [Function.comp_apply, if_pos hk]
    rw [Prod.mk.injEq]
    exact ⟨hk.1.symm, hk.2.symm⟩
  · simp only [Function.comp_apply, if_neg hk]

theorem keys_nodup_addEdge (G : DiGraph α) (u v : α) (d : Nat)
    (h : G.keys.Nodup) : (G.addEdge u v d).keys.Nodup := by
  by_cases hcase : ((G.addNode u).addNode v).hasEdge u v = true
  · rw [keys_addEdge_pos G u v d hcase]
    exact h
  · unfold keys
    rw [edges_addEdge_neg G u v d hcase, List.map_append]
    rw [List.nodup_append]
    refine ⟨h, List.nodup_singleton _, ?_⟩
    intro k hk hk2
    rcases List.mem_singleton.mp hk2 with rfl
    rw [hasEdge_addNode, hasEdge_addNode] at hcase
    rw [Bool.not_eq_true, hasEdge_eq_false_iff] at hcase
    exact hcase ((mem_keys_iff G u v).mp hk)

theorem keys_nodup_removeEdge (G : DiGraph α) (u v : α)
    (h : G.keys.Nodup) : (G.removeEdge u v).keys.Nodup := by
  unfold keys at h ⊢
  unfold removeEdge
  exact ((List.filter_sublist G.edges).map (fun e => (e.1, e.2.1))).nodup h

/-- Reachable nodes stay inside the node set of a well-formed graph. -/
theorem mem_nodes_of_mem_reachF (G : DiGraph α) (hWF : G.WFadj) {u : α}
    (hu : u ∈ G.nodes) {x : α} (hx : x ∈ G.reachF u) : x ∈ G.nodes := by
  have hreach := (G.mem_reachF_iff u x).mp hx
  rcases hreach.cases_tail with h1 | ⟨c, _, hc⟩
  · rw [h1]; exact hu
  · exact (hWF c x hc).2

end DiGraph

/-- Generic left-fold invariant. -/
theorem foldl_inv {β γ : Type} (f : γ → β → γ) (P : γ → Prop) (Q : β → Prop) :
    ∀ (l : List β) (a : γ), P a → (∀ x ∈ l, Q x) →
      (∀ a x, Q x → P a → P (f a x)) → P (l.foldl f a) := by
  intro l
  induction l with
  | nil => intro a ha _ _; exact ha
  | cons x t ih =>
    intro a ha hQ hstep
    exact ih (f a x) (hstep a x (hQ x (by simp)) ha) (fun y hy => hQ y (by simp [hy])) hstep

theorem mem_stepTwoPairs {n : Nat} {pr : Nat × Nat} (h : pr ∈ stepTwoPairs n) :
    pr.1 < pr.2 ∧ pr.2 < n := by
  unfold stepTwoPairs at h
  rw [List.mem_flatMap] at h
  rcases h with ⟨i, _, hj⟩
  rw [List.mem_map] at hj
  rcases hj with ⟨j, hj, rfl⟩
  rw [List.mem_filter, List.mem_range, decide_eq_true_eq] at hj
  exact ⟨hj.2, hj.1⟩

theorem getD_mem_of_lt (l : List Nat) (i : Nat) (h : i < l.length) : l.getD i 0 ∈ l := by
  rw [List.getD_eq_getElem l 0 h]
  exact List.getElem_mem h

/-- The invariant maintained over the step-2 fold. -/
def GoodBase (pp : GenParams) (G : DiGraph Nat) : Prop :=
  G.nodes = pp.ordering ∧ G.WFadj ∧ G.keys.Nodup ∧
    (∀ x y, G.adj x y → pp.ordering.indexOf x < pp.ordering.indexOf y)

theorem addPairEdge_good (pp : GenParams) (hord : pp.ordering.Perm (List.range pp.n)) :
    ∀ (G : DiGraph Nat) (pr : Nat × Nat), (pr.1 < pr.2 ∧ pr.2 < pp.n) →
      GoodBase pp G → GoodBase pp (addPairEdge pp G pr) := by
  intro G pr hpr hG
  obtain ⟨hnodes, hWF, hkeys, hrank⟩ := hG
  have hlen : pp.ordering.length = pp.n := by
    rw [hord.length_eq, List.length_range]
  have hnd : pp.ordering.Nodup := hord.nodup_iff.mpr (List.nodup_range pp.n)
  have hi : pr.1 < pp.ordering.length := by omega
  have hj : pr.2 < pp.ordering.length := by omega
  unfold addPairEdge
  by_cases hc : pp.rnd pr.1 pr.2 < pp.p
  · rw [if_pos hc]
    have hu : pp.ordering.getD pr.1 0 ∈ G.nodes := by
      rw [hnodes]; exact getD_mem_of_lt _ _ hi
    have hv : pp.ordering.getD pr.2 0 ∈ G.nodes := by
      rw [hnodes]; exact getD_mem_of_lt _ _ hj
    refine ⟨by rw [DiGraph.addEdge_of_mem_nodes G _ hu hv, hnodes],
      hWF.addEdge _ hu hv, DiGraph.keys_nodup_addEdge G _ _ _ hkeys, ?_⟩
    intro x y hxy
    rw [DiGraph.adj_addEdge] at hxy
    rcases hxy with hxy | ⟨rfl, rfl⟩
    · exact hrank x y hxy
    · rw [List.getD_eq_getElem pp.ordering 0 hi, List.getD_eq_getElem pp.ordering 0 hj]
      rw [List.indexOf_getElem hnd pr.1 hi, List.indexOf_getElem hnd pr.2 hj]
      exact hpr.1
  · rw [if_neg hc]
    exact ⟨hnodes, hWF, hkeys, hrank⟩

theorem baseGraph_good (pp : GenParams) (hord : pp.ordering.Perm (List.range pp.n)) :
    GoodBase pp (baseGraph pp) := by
  unfold baseGraph
  apply foldl_inv (addPairEdge pp) (GoodBase pp) (fun pr => pr.1 < pr.2 ∧ pr.2 < pp.n)
  · refine ⟨rfl, ?_, List.nodup_nil, ?_⟩
    · rintro x y ⟨d, hmem⟩
      simp at hmem
    · rintro x y ⟨d, hmem⟩
      simp at hmem
  · intro pr hpr
    exact mem_stepTwoPairs hpr
  · intro G pr hQ hP
    exact addPairEdge_good pp hord G pr hQ hP

theorem baseGraph_isAcyclic (pp : GenParams) (hord : pp.ordering.Perm (List.range pp.n)) :
    (baseGraph pp).isAcyclic = true := by
  obtain ⟨_, _, _, hrank⟩ := baseGraph_good pp hord
  exact DiGraph.isAcyclic_of_rank _ (fun x => pp.ordering.indexOf x) hrank

/-- The invariant maintained over the repair pass. -/
def GoodRepair (ord : List Nat) (G : DiGraph Nat) : Prop :=
  G.nodes = ord ∧ G.WFadj ∧ G.keys.Nodup ∧ G.isAcyclic = true

theorem spliceAttempts_cons_pos1 (dur3 : Nat → Nat) (node t : Nat) (rest : List Nat)
    (G : DiGraph Nat) (cnt : Nat) (snaps : List (DiGraph Nat))
    (h : (G.addEdge node t (dur3 cnt)).isAcyclic = true) :
    spliceAttempts dur3 node G cnt snaps (t :: rest)
      = (G.addEdge node t (dur3 cnt), cnt + 1, snaps ++ [G.addEdge node t (dur3 cnt)], true) := by
  rw [spliceAttempts]
  simp only [h, if_true]

theorem spliceAttempts_cons_pos2 (dur3 : Nat → Nat) (node t : Nat) (rest : List Nat)
    (G : DiGraph Nat) (cnt : Nat) (snaps : List (DiGraph Nat))
    (h1 : ¬ (G.addEdge node t (dur3 cnt)).isAcyclic = true)
    (hroll : (G.addEdge node t (dur3 cnt)).removeEdge node t = G)
    (h2 : (G.addEdge t node (dur3 (cnt + 1))).isAcyclic = true) :
    spliceAttempts dur3 node G cnt snaps (t :: rest)
      = (G.addEdge t node (dur3 (cnt + 1)), cnt + 2,
          snaps ++ [G.addEdge node t (dur3 cnt), G, G.addEdge t node (dur3 (cnt + 1))], true) := by
  rw [spliceAttempts]
  simp only [h1, if_false, hroll, h2, if_true, Bool.false_eq_true]

theorem spliceAttempts_cons_neg (dur3 : Nat → Nat) (node t : Nat) (rest : List Nat)
    (G : DiGraph Nat) (cnt : Nat) (snaps : List (DiGraph Nat))
    (h1 : ¬ (G.addEdge node t (dur3 cnt)).isAcyclic = true)
    (hroll : (G.addEdge node t (dur3 cnt)).removeEdge node t = G)
    (h2 : ¬ (G.addEdge t node (dur3 (cnt + 1))).isAcyclic = true)
    (hroll2 : (G.addEdge t node (dur3 (cnt + 1))).removeEdge t node = G) :
    spliceAttempts dur3 node G cnt snaps (t :: rest)
      = spliceAttempts dur3 node G (cnt + 2)
          (snaps ++ [G.addEdge node t (dur3 cnt), G, G.addEdge t node (dur3 (cnt + 1)), G]) rest := by
  rw [spliceAttempts]
  simp only [h1, if_false, hroll, h2, if_true, Bool.false_eq_true, hroll2]

theorem spliceAttempts_inv (dur3 : Nat → Nat) (node : Nat) (ord : List Nat) :
    ∀ (targets : List Nat) (G : DiGraph Nat) (cnt : Nat) (snaps : List (DiGraph Nat)),
      GoodRepair ord G → node ∈ ord → (∀ t ∈ targets, t ∈ ord) →
      GoodRepair ord (spliceAttempts dur3 node G cnt snaps targets).1 := by
  intro targets
  induction targets with
  | nil =>
    intro G cnt snaps hG _ _
    exact hG
  | cons t rest ih =>
    intro G cnt snaps hG hnode htgt
    obtain ⟨hnodes, hWF, hkeys, hacyc⟩ := hG
    have hnodeG : node ∈ G.nodes := by rw [hnodes]; exact hnode
    have htG : t ∈ G.nodes := by rw [hnodes]; exact htgt t (by simp)
    by_cases hGa : (G.addEdge node t (dur3 cnt)).isAcyclic = true
    · rw [spliceAttempts_cons_pos1 dur3 node t rest G cnt snaps hGa]
      exact ⟨by rw [DiGraph.addEdge_of_mem_nodes G _ hnodeG htG, hnodes],
        hWF.addEdge _ hnodeG htG, DiGraph.keys_nodup_addEdge G _ _ _ hkeys, hGa⟩
    · have hne : G.hasEdge node t = false := by
        rcases Bool.eq_false_or_eq_true (G.hasEdge node t) with h2 | h2
        · exfalso
          rw [DiGraph.hasEdge_iff_adj] at h2
          exact hGa ((DiGraph.isAcyclic_addEdge_of_adj G _ h2).mpr hacyc)
        · exact h2
      have hroll := DiGraph.removeEdge_addEdge G node t (dur3 cnt) hnodeG htG hne
      by_cases hGb : (G.addEdge t node (dur3 (cnt + 1))).isAcyclic = true
      · rw [spliceAttempts_cons_pos2 dur3 node t rest G cnt snaps hGa hroll hGb]
        exact ⟨by rw [DiGraph.addEdge_of_mem_nodes G _ htG hnodeG, hnodes],
          hWF.addEdge _ htG hnodeG, DiGraph.keys_nodup_addEdge G _ _ _ hkeys, hGb⟩
      · have hne2 : G.hasEdge t node = false := by
          rcases Bool.eq_false_or_eq_true (G.hasEdge t node) with h2 | h2
          · exfalso
            rw [DiGraph.hasEdge_iff_adj] at h2
            exact hGb ((DiGraph.isAcyclic_addEdge_of_adj G _ h2).mpr hacyc)
          · exact h2
        have hroll2 := DiGraph.removeEdge_addEdge G t node (dur3 (cnt + 1)) htG hnodeG hne2
        rw [spliceAttempts_cons_neg dur3 node t rest G cnt snaps hGa hroll hGb hroll2]
        exact ih G (cnt + 2) _ ⟨hnodes, hWF, hkeys, hacyc⟩ hnode
          (fun x hx => htgt x (by simp [hx]))

theorem repairLoop_inv (dur3 : Nat → Nat) (pickR : Finset Nat → List Nat)
    (hpR : ∀ s : Finset Nat, (pickR s).Nodup ∧ ∀ x, x ∈ pickR s ↔ x ∈ s)
    (ord : List Nat) :
    ∀ (todo : List Nat) (G : DiGraph Nat) (cnt : Nat) (reach : Finset Nat)
      (snaps iters : List (DiGraph Nat)),
      GoodRepair ord G → (∀ x ∈ todo, x ∈ ord) → (∀ x ∈ reach, x ∈ ord) →
      (∀ g ∈ iters, GoodRepair ord g) →
      GoodRepair ord (repairLoop dur3 pickR G cnt reach snaps iters todo).1 ∧
        ∀ g ∈ (repairLoop dur3 pickR G cnt reach snaps iters todo).2.2.2.2,
          GoodRepair ord g := by
  intro todo
  induction todo with
  | nil =>
    intro G cnt reach snaps iters hG _ _ hiters
    exact ⟨hG, hiters⟩
  | cons node rest ih =>
    intro G cnt reach snaps iters hG htodo hreach hiters
    rw [repairLoop]
    rcases hsp : spliceAttempts dur3 node G cnt snaps (pickR reach)
      with ⟨G2, cnt2, snaps2, inserted⟩
    have hG2 : GoodRepair ord G2 := by
      have := spliceAttempts_inv dur3 node ord (pickR reach) G cnt snaps hG
        (htodo node (by simp))
        (fun t ht => hreach t ((hpR reach).2 t |>.mp ht))
      rw [hsp] at this
      exact this
    have hreach2 : ∀ x ∈ (if inserted then insert node reach else reach), x ∈ ord := by
      intro x hx
      by_cases hi : inserted = true
      · rw [if_pos hi] at hx
        rcases Finset.mem_insert.mp hx with rfl | hx
        · exact htodo x (by simp)
        · exact hreach x hx
      · rw [if_neg hi] at hx
        exact hreach x hx
    exact ih G2 cnt2 _ snaps2 (iters ++ [G2]) hG2
      (fun x hx => htodo x (by simp [hx])) hreach2
      (by
        intro g hg
        rcases List.mem_append.mp hg with hg | hg
        · exact hiters g hg
        · rcases List.mem_singleton.mp hg with rfl
          exact hG2)

theorem genConnectedNat_good (pp : GenParams) (hwf : GenWF pp) (hn : 1 ≤ pp.n) :
    GoodRepair pp.ordering (genConnectedNat pp).1 ∧
      ∀ g ∈ (genConnectedNat pp).2.2, GoodRepair pp.ordering g := by
  have hbase := baseGraph_good pp hwf.hord
  obtain ⟨hnodes, hWF, hkeys, _⟩ := hbase
  have hbacyc := baseGraph_isAcyclic pp hwf.hord
  have hGRbase : GoodRepair pp.ordering (baseGraph pp) := ⟨hnodes, hWF, hkeys, hbacyc⟩
  have hlen : pp.ordering.length = pp.n := by
    rw [hwf.hord.length_eq, List.length_range]
  have h0 : pp.ordering.getD 0 0 ∈ (baseGraph pp).nodes := by
    rw [hnodes]
    exact getD_mem_of_lt _ _ (by omega)
  unfold genConnectedNat
  rcases hrl : repairLoop pp.dur3 pp.pickR (baseGraph pp) 0
      ((baseGraph pp).reachF (pp.ordering.getD 0 0))
      [baseGraph pp] [baseGraph pp]
      (pp.pickU ((baseGraph pp).nodes.toFinset \
        (baseGraph pp).reachF (pp.ordering.getD 0 0)))
    with ⟨G2, cnt2, reach2, snaps2, iters2⟩
  have hmain := repairLoop_inv pp.dur3 pp.pickR hwf.hR pp.ordering
    (pp.pickU ((baseGraph pp).nodes.toFinset \
        (baseGraph pp).reachF (pp.ordering.getD 0 0)))
    (baseGraph pp) 0
    ((baseGraph pp).reachF (pp.ordering.getD 0 0))
    [baseGraph pp] [baseGraph pp]
    hGRbase
    (by
      intro x hx
      have hx2 := ((hwf.hU _).2 x).mp hx
      have hx3 := (Finset.mem_sdiff.mp hx2).1
      rw [← hnodes]
      exact List.mem_toFinset.mp hx3)
    (by
      intro x hx
      rw [← hnodes]
      exact DiGraph.mem_nodes_of_mem_reachF (baseGraph pp) hWF h0 hx)
    (by
      intro g hg
      rcases List.mem_singleton.mp hg with rfl
      exact hGRbase)
  rw [hrl] at hmain
  simp only [hrl]
  exact hmain

theorem nodes_mapGraph {α β : Type} (f : α → β) (G : DiGraph α) :
    (mapGraph f G).nodes = G.nodes.map f := rfl

theorem adj_mapGraph {α β : Type} (f : α → β) (G : DiGraph α) (a b : β) :
    (mapGraph f G).adj a b ↔ ∃ x y, G.adj x y ∧ a = f x ∧ b = f y := by
  unfold mapGraph DiGraph.adj
  constructor
  · rintro ⟨d, hmem⟩
    rw [List.mem_map] at hmem
    rcases hmem with ⟨⟨x, y, e⟩, hmem, heq⟩
    rcases Prod.mk.injEq .. ▸ heq with ⟨h1, h2⟩
    rcases Prod.mk.injEq .. ▸ h2 with ⟨h2, h3⟩
    exact ⟨x, y, ⟨e, hmem⟩, h1.symm, h2.symm⟩
  · rintro ⟨x, y, ⟨d, hmem⟩, rfl, rfl⟩
    exact ⟨d, List.mem_map.mpr ⟨(x, y, d), hmem, rfl⟩⟩

theorem transGen_mapGraph_inv {α β : Type} (f : α → β) (hinj : Function.Injective f)
    (G : DiGraph α) :
    ∀ a b, Relation.TransGen (mapGraph f G).adj a b →
      ∀ x y, a = f x → b = f y → Relation.TransGen G.adj x y := by
  intro a b h
  induction h with
  | single h1 =>
    intro x y hx hy
    rcases (adj_mapGraph f G _ _).mp h1 with ⟨x2, y2, hadj, hx2, hy2⟩
    have hxx : x = x2 := hinj (hx ▸ hx2)
    have hyy : y = y2 := hinj (hy ▸ hy2)
    rw [hxx, hyy]
    exact Relation.TransGen.single hadj
  | tail h1 h2 ih =>
    intro x y hx hy
    rcases (adj_mapGraph f G _ _).mp h2 with ⟨x2, y2, hadj, hx2, hy2⟩
    have hyy : y = y2 := hinj (hy ▸ hy2)
    have hstep := ih x x2 hx hx2
    rw [hyy]
    exact hstep.tail hadj

theorem isAcyclic_mapGraph {α β : Type} [DecidableEq α] [DecidableEq β]
    (f : α → β) (hinj : Function.Injective f) (G : DiGraph α)
    (h : G.isAcyclic = true) : (mapGraph f G).isAcyclic = true := by
  rw [DiGraph.isAcyclic_iff]
  intro u hcyc
  rcases Relation.TransGen.head'_iff.mp hcyc with ⟨b, hub, _⟩
  rcases (adj_mapGraph f G u b).mp hub with ⟨x, y, _, hx, _⟩
  exact (DiGraph.isAcyclic_iff G).mp h x (transGen_mapGraph_inv f hinj G u u hcyc x x hx hx)

theorem WFadj_mapGraph {α β : Type} (f : α → β) (G : DiGraph α) (h : G.WFadj) :
    (mapGraph f G).WFadj := by
  intro a b hab
  rcases (adj_mapGraph f G a b).mp hab with ⟨x, y, hadj, rfl, rfl⟩
  rcases h x y hadj with ⟨hx, hy⟩
  rw [nodes_mapGraph]
  exact ⟨List.mem_map.mpr ⟨x, hx, rfl⟩, List.mem_map.mpr ⟨y, hy, rfl⟩⟩

theorem keys_mapGraph {α β : Type} (f : α → β) (G : DiGraph α) :
    (mapGraph f G).keys = G.keys.map (Prod.map f f) := by
  unfold DiGraph.keys mapGraph
  rw [List.map_map, List.map_map]
  rfl

theorem keys_nodup_mapGraph {α β : Type} (f : α → β) (hinj : Function.Injective f)
    (G : DiGraph α) (h : G.keys.Nodup) : (mapGraph f G).keys.Nodup := by
  rw [keys_mapGraph]
  exact h.map (hinj.prodMap hinj)

theorem nodeId_node_injective : Function.Injective NodeId.node := by
  intro a b h
  cases h
  rfl

theorem no_adj_to_virt_mapGraph (G : DiGraph Nat) (a : NodeId) :
    ¬ (mapGraph NodeId.node G).adj a NodeId.virt := by
  intro h
  rcases (adj_mapGraph NodeId.node G a NodeId.virt).mp h with ⟨x, y, _, _, hy⟩
  exact NodeId.noConfusion hy

theorem virt_not_mem_mapGraph (G : DiGraph Nat) :
    NodeId.virt ∉ (mapGraph NodeId.node G).nodes := by
  rw [nodes_mapGraph]
  intro h
  rcases List.mem_map.mp h with ⟨x, _, hx⟩
  exact NodeId.noConfusion hx

theorem adj_foldVirt (durV : Nat → Nat) :
    ∀ (l : List (Nat × NodeId)) (G : DiGraph NodeId) (x y : NodeId),
      (l.foldl (fun g pr => g.addEdge NodeId.virt pr.2 (durV pr.1)) G).adj x y ↔
        G.adj x y ∨ (x = NodeId.virt ∧ y ∈ l.map Prod.snd) := by
  intro l
  induction l with
  | nil =>
    intro G x y
    simp
  | cons pr t ih =>
    intro G x y
    rw [List.foldl_cons, ih, DiGraph.adj_addEdge, List.map_cons, List.mem_cons]
    tauto

theorem nodes_foldVirt_mem (durV : Nat → Nat) :
    ∀ (l : List (Nat × NodeId)) (G : DiGraph NodeId),
      NodeId.virt ∈ G.nodes → (∀ pr ∈ l, pr.2 ∈ G.nodes) →
      (l.foldl (fun g pr => g.addEdge NodeId.virt pr.2 (durV pr.1)) G).nodes = G.nodes := by
  intro l
  induction l with
  | nil => intro G _ _; rfl
  | cons pr t ih =>
    intro G hv hl
    rw [List.foldl_cons]
    have hp : pr.2 ∈ G.nodes := hl pr (by simp)
    have hnodes := DiGraph.addEdge_of_mem_nodes G (durV pr.1) hv hp
    rw [ih _ (by rw [hnodes]; exact hv) (fun q hq => by rw [hnodes]; exact hl q (by simp [hq])),
      hnodes]

theorem nodes_foldVirt_new (durV : Nat → Nat) (l : List (Nat × NodeId)) (G : DiGraph NodeId)
    (hv : NodeId.virt ∉ G.nodes) (hl : ∀ pr ∈ l, pr.2 ∈ G.nodes) (hne : l ≠ []) :
    (l.foldl (fun g pr => g.addEdge NodeId.virt pr.2 (durV pr.1)) G).nodes
      = G.nodes ++ [NodeId.virt] := by
  rcases l with _ | ⟨pr, t⟩
  · exact absurd rfl hne
  · rw [List.foldl_cons]
    have hp : pr.2 ∈ G.nodes := hl pr (by simp)
    have h1 : (G.addNode NodeId.virt).nodes = G.nodes ++ [NodeId.virt] := by
      rw [DiGraph.nodes_addNode, if_neg hv]
    have h2 : (G.addEdge NodeId.virt pr.2 (durV pr.1)).nodes = G.nodes ++ [NodeId.virt] := by
      rw [DiGraph.nodes_addEdge]
      rw [DiGraph.addNode_of_mem _ (by rw [h1]; exact List.mem_append.mpr (Or.inl hp)), h1]
    rw [nodes_foldVirt_mem durV t _ (by rw [h2]; simp)
      (fun q hq => by rw [h2]; exact List.mem_append.mpr (Or.inl (hl q (by simp [hq])))), h2]

theorem acyclic_foldVirt (durV : Nat → Nat) :
    ∀ (l : List (Nat × NodeId)) (G : DiGraph NodeId),
      G.isAcyclic = true → (∀ a, ¬ G.adj a NodeId.virt) → (∀ pr ∈ l, pr.2 ≠ NodeId.virt) →
      (l.foldl (fun g pr => g.addEdge NodeId.virt pr.2 (durV pr.1)) G).isAcyclic = true := by
  intro l
  induction l with
  | nil => intro G h _ _; exact h
  | cons pr t ih =>
    intro G hacyc hno hl
    rw [List.foldl_cons]
    have hstep : (G.addEdge NodeId.virt pr.2 (durV pr.1)).isAcyclic = true := by
      rw [DiGraph.isAcyclic_addEdge_iff G _ _ _ hacyc]
      exact DiGraph.not_reach_of_no_in G NodeId.virt hno pr.2 (hl pr (by simp))
    have hno2 : ∀ a, ¬ (G.addEdge NodeId.virt pr.2 (durV pr.1)).adj a NodeId.virt := by
      intro a ha
      rw [DiGraph.adj_addEdge] at ha
      rcases ha with ha | ⟨_, h2⟩
      · exact hno a ha
      · exact hl pr (by simp) h2.symm
    exact ih _ hstep hno2 (fun q hq => hl q (by simp [hq]))

theorem keysnodup_foldVirt (durV : Nat → Nat) :
    ∀ (l : List (Nat × NodeId)) (G : DiGraph NodeId), G.keys.Nodup →
      (l.foldl (fun g pr => g.addEdge NodeId.virt pr.2 (durV pr.1)) G).keys.Nodup := by
  intro l
  induction l with
  | nil => intro G h; exact h
  | cons pr t ih =>
    intro G h
    rw [List.foldl_cons]
    exact ih _ (DiGraph.keys_nodup_addEdge G _ _ _ h)

/-- The invariants of the final generated graph and resolved source. -/
structure FinalGood (G : DiGraph NodeId) (src : NodeId) : Prop where
  hacyc : G.isAcyclic = true
  hWF : G.WFadj
  hkeys : G.keys.Nodup
  hnodesnd : G.nodes.Nodup
  hne : G.nodes ≠ []
  hsrc : src ∈ G.nodes
  huniq : ∀ z ∈ G.nodes, (G.inDegB z = 0 ↔ z = src)

theorem mem_naturalSources (G : DiGraph NodeId) (z : NodeId) :
    z ∈ naturalSources G ↔ z ∈ G.nodes ∧ G.inDegB z = 0 := by
  unfold naturalSources
  rw [List.mem_filter, decide_eq_true_eq]

theorem getSourceNode_spec (durV : Nat → Nat) (G : DiGraph NodeId)
    (hacyc : G.isAcyclic = true) (hWF : G.WFadj) (hkeys : G.keys.Nodup)
    (hnodesnd : G.nodes.Nodup) (hne : G.nodes ≠ [])
    (hnovirt : ∀ a, ¬ G.adj a NodeId.virt) (hvnotin : NodeId.virt ∉ G.nodes) :
    FinalGood (getSourceNode durV G).1 (getSourceNode durV G).2 := by
  have hsne : naturalSources G ≠ [] := by
    rcases DiGraph.exists_source_node G hacyc hWF.srcClosed hne with ⟨z, hz, hdeg⟩
    exact List.ne_nil_of_mem ((mem_naturalSources G z).mpr ⟨hz, hdeg⟩)
  have hsnodes : ∀ z ∈ naturalSources G, z ∈ G.nodes :=
    fun z hz => ((mem_naturalSources G z).mp hz).1
  unfold getSourceNode
  by_cases hlen : (naturalSources G).length = 1
  · rcases List.length_eq_one.mp hlen with ⟨s, hs⟩
    simp only [hlen, if_true, hs, List.headD_cons]
    have hsmem : s ∈ naturalSources G := by rw [hs]; simp
    refine ⟨hacyc, hWF, hkeys, hnodesnd, hne, hsnodes s hsmem, ?_⟩
    intro z hz
    constructor
    · intro hdeg
      have : z ∈ naturalSources G := (mem_naturalSources G z).mpr ⟨hz, hdeg⟩
      rw [hs] at this
      exact List.mem_singleton.mp this
    · rintro rfl
      exact ((mem_naturalSources G z).mp hsmem).2
  · simp only [hlen, if_false]
    set l := (naturalSources G).enum with hl
    have hsnd : l.map Prod.snd = naturalSources G := List.enum_map_snd _
    have henum_mem : ∀ pr ∈ l, pr.2 ∈ G.nodes := by
      intro pr hpr
      apply hsnodes
      rw [← hsnd]
      exact List.mem_map.mpr ⟨pr, hpr, rfl⟩
    have henum_ne : l ≠ [] := by
      intro h0
      apply hsne
      rw [← hsnd, h0]
      rfl
    have hnvirt_src : ∀ pr ∈ l, pr.2 ≠ NodeId.virt := by
      intro pr hpr h0
      exact hvnotin (h0 ▸ henum_mem pr hpr)
    have hadj2 : ∀ x y, (addVirtualEdges durV G (naturalSources G)).adj x y ↔
        G.adj x y ∨ (x = NodeId.virt ∧ y ∈ naturalSources G) := by
      intro x y
      unfold addVirtualEdges
      rw [adj_foldVirt durV l G x y, hsnd]
    have hnodes2 : (addVirtualEdges durV G (naturalSources G)).nodes
        = G.nodes ++ [NodeId.virt] := by
      unfold addVirtualEdges
      exact nodes_foldVirt_new durV l G hvnotin henum_mem henum_ne
    refine ⟨?_, ?_, ?_, ?_, ?_, ?_, ?_⟩
    · unfold addVirtualEdges
      exact acyclic_foldVirt durV l G hacyc hnovirt hnvirt_src
    · intro x y hxy
      rw [hadj2] at hxy
      rw [hnodes2]
      rcases hxy with hxy | ⟨rfl, hy⟩
      · rcases hWF x y hxy with ⟨h1, h2⟩
        exact ⟨List.mem_append.mpr (Or.inl h1), List.mem_append.mpr (Or.inl h2)⟩
      · exact ⟨List.mem_append.mpr (Or.inr (by simp)),
          List.mem_append.mpr (Or.inl (hsnodes y hy))⟩
    · unfold addVirtualEdges
      exact keysnodup_foldVirt durV l G hkeys
    · rw [hnodes2]
      rw [List.nodup_append]
      exact ⟨hnodesnd, List.nodup_singleton _, by
        intro a ha ha2
        rcases List.mem_singleton.mp ha2 with rfl
        exact hvnotin ha⟩
    · rw [hnodes2]
      intro h0
      rcases List.append_eq_nil.mp h0 with ⟨_, h2⟩
      exact List.noConfusion h2
    · rw [hnodes2]
      exact List.mem_append.mpr (Or.inr (by simp))
    · intro z hz
      rw [hnodes2, List.mem_append] at hz
      constructor
      · intro hdeg
        by_contra hzv
        have hzG : z ∈ G.nodes := by
          rcases hz with hz | hz
          · exact hz
          · exact absurd (List.mem_singleton.mp hz) hzv
        have : ∀ a, ¬ (addVirtualEdges durV G (naturalSources G)).adj a z :=
          (DiGraph.inDegB_eq_zero_iff _ z).mp hdeg
        by_cases hdegG : G.inDegB z = 0
        · exact this NodeId.virt ((hadj2 NodeId.virt z).mpr
            (Or.inr ⟨rfl, (mem_naturalSources G z).mpr ⟨hzG, hdegG⟩⟩))
        · rcases DiGraph.exists_adj_of_inDegB_ne_zero G hdegG with ⟨a, ha⟩
          exact this a ((hadj2 a z).mpr (Or.inl ha))
      · rintro rfl
        rw [DiGraph.inDegB_eq_zero_iff]
        intro a ha
        rw [hadj2] at ha
        rcases ha with ha | ⟨_, hv⟩
        · exact hnovirt a ha
        · exact hvnotin (hsnodes _ hv)

/-- The final graph and source of the full generation pipeline satisfy the
single-source DAG invariants. -/
theorem generateDAG_final (pp : GenParams) (hwf : GenWF pp) (hn : 1 ≤ pp.n) :
    FinalGood (generateDAG pp).1 (generateDAG pp).2 := by
  obtain ⟨⟨hnodes, hWF, hkeys, hacyc⟩, _⟩ := genConnectedNat_good pp hwf hn
  have hlen : pp.ordering.length = pp.n := by
    rw [hwf.hord.length_eq, List.length_range]
  have hnd : pp.ordering.Nodup := hwf.hord.nodup_iff.mpr (List.nodup_range pp.n)
  set G2 := (genConnectedNat pp).1 with hG2
  have h1 : (mapGraph NodeId.node G2).isAcyclic = true :=
    isAcyclic_mapGraph NodeId.node nodeId_node_injective G2 hacyc
  have h2 : (mapGraph NodeId.node G2).WFadj := WFadj_mapGraph NodeId.node G2 hWF
  have h3 : (mapGraph NodeId.node G2).keys.Nodup :=
    keys_nodup_mapGraph NodeId.node nodeId_node_injective G2 hkeys
  have h4 : (mapGraph NodeId.node G2).nodes.Nodup := by
    rw [nodes_mapGraph, hnodes]
    exact hnd.map nodeId_node_injective
  have h5 : (mapGraph NodeId.node G2).nodes ≠ [] := by
    rw [nodes_mapGraph, hnodes]
    intro h0
    have := congrArg List.length h0
    rw [List.length_map, hlen] at this
    simp at this
    omega
  exact getSourceNode_spec pp.durV (mapGraph NodeId.node G2) h1 h2 h3 h4 h5
    (no_adj_to_virt_mapGraph G2) (virt_not_mem_mapGraph G2)

/-- A structural enumeration of a finite set of naturals, used to
instantiate the set-iteration-order parameters at concrete inputs. -/
def enumSet (s : Finset Nat) : List Nat :=
  (List.range (s.sup id + 1)).filter (fun x => decide (x ∈ s))

theorem enumSet_spec (s : Finset Nat) :
    (enumSet s).Nodup ∧ ∀ x, x ∈ enumSet s ↔ x ∈ s := by
  constructor
  · exact (List.nodup_range _).filter _
  · intro x
    unfold enumSet
    rw [List.mem_filter, List.mem_range, decide_eq_true_eq]
    constructor
    · exact fun h => h.2
    · intro h
      refine ⟨?_, h⟩
      have h2 : id x ≤ s.sup id := Finset.le_sup h
      rw [id_eq] at h2
      omega

theorem enumSet_reverse_spec (s : Finset Nat) :
    ((enumSet s).reverse).Nodup ∧ ∀ x, x ∈ (enumSet s).reverse ↔ x ∈ s :=
  ⟨List.nodup_reverse.mpr (enumSet_spec s).1,
    fun x => (List.mem_reverse).trans ((enumSet_spec s).2 x)⟩

/-- The rational one half, written in normal form so that concrete
evaluation reduces. -/
def halfQ : ℚ := ⟨1, 2, by decide, by decide⟩

/-- Concrete generation parameters exhibiting a transient cycle inside
the repair pass: `n = 3`, ordering `[0, 1, 2]`, a single step-2 edge
`1 → 2`, so nodes 1 and 2 are unreachable from node 0; repairing `1`
attaches `1 → 0`; repairing `2` first probes `2 → 1`, which closes the
cycle `1 → 2 → 1` until it is removed again. -/
def ppC3 : GenParams :=
  { n := 3
    p := halfQ
    rnd := fun i j => if i = 1 ∧ j = 2 then 0 else 1
    dur2 := fun _ _ => 5
    dur3 := fun _ => 5
    durV := fun _ => 5
    ordering := [0, 1, 2]
    pickU := fun s => enumSet s
    pickR := fun s => (enumSet s).reverse }

theorem ppC3_wf : GenWF ppC3 := by
  refine ⟨?_, ?_, ?_⟩
  · show ([0, 1, 2] : List Nat).Perm (List.range 3)
    have h : List.range 3 = [0, 1, 2] := by decide
    rw [h]
  · intro s
    exact enumSet_spec s
  · intro s
    exact enumSet_reverse_spec s

theorem schemaTriples_insertSchema (u : NodeId) (pr : NodeId × Nat) :
    ∀ (acc : List (NodeId × List (NodeId × Nat))),
      (schemaTriples (insertSchema acc u pr)).Perm
        (schemaTriples acc ++ [(u, pr.1, pr.2)]) := by
  intro acc
  induction acc with
  | nil =>
    show (schemaTriples [(u, [pr])]).Perm _
    unfold schemaTriples
    simp
  | cons hd t ih =>
    rcases hd with ⟨k, lst⟩
    rw [insertSchema]
    by_cases hk : k = u
    · subst hk
      rw [if_pos rfl]
      unfold schemaTriples
      rw [List.flatMap_cons, List.flatMap_cons, List.map_append]
      rw [List.append_assoc, List.append_assoc]
      apply List.Perm.append_left
      rw [List.map_singleton]
      exact List.perm_append_comm
    · rw [if_neg hk]
      unfold schemaTriples
      rw [List.flatMap_cons, List.flatMap_cons, List.append_assoc]
      apply List.Perm.append_left
      exact ih

theorem schemaTriples_foldl :
    ∀ (l : List (NodeId × NodeId × Nat)) (acc : List (NodeId × List (NodeId × Nat))),
      (schemaTriples (l.foldl (fun a e => insertSchema a e.1 (e.2.1, e.2.2)) acc)).Perm
        (schemaTriples acc ++ l) := by
  intro l
  induction l with
  | nil =>
    intro acc
    rw [List.foldl_nil, List.append_nil]
  | cons e rest ih =>
    intro acc
    rw [List.foldl_cons]
    refine (ih (insertSchema acc e.1 (e.2.1, e.2.2))).trans ?_
    have h1 := schemaTriples_insertSchema e.1 (e.2.1, e.2.2) acc
    refine (h1.append_right rest).trans ?_
    rw [List.append_assoc, List.singleton_append]

theorem schemaTriples_toSchema (G : DiGraph NodeId) :
    (schemaTriples (toSchema G)).Perm G.edges := by
  have h := schemaTriples_foldl G.edges []
  unfold toSchema
  simpa using h

theorem mem_keys_insertSchema (u : NodeId) (pr : NodeId × Nat) (x : NodeId) :
    ∀ (acc : List (NodeId × List (NodeId × Nat))),
      (x ∈ (insertSchema acc u pr).map Prod.fst ↔ x ∈ acc.map Prod.fst ∨ x = u) := by
  intro acc
  induction acc with
  | nil =>
    show x ∈ ([(u, [pr])].map Prod.fst) ↔ _
    simp
  | cons hd t ih =>
    rcases hd with ⟨k, lst⟩
    rw [insertSchema]
    by_cases hk : k = u
    · subst hk
      rw [if_pos rfl]
      simp only [List.map_cons, List.mem_cons]
      tauto
    · rw [if_neg hk]
      simp only [List.map_cons, List.mem_cons, ih]
      tauto

theorem mem_keys_schemaFold :
    ∀ (l : List (NodeId × NodeId × Nat)) (acc : List (NodeId × List (NodeId × Nat))) (x : NodeId),
      (x ∈ (l.foldl (fun a e => insertSchema a e.1 (e.2.1, e.2.2)) acc).map Prod.fst ↔
        x ∈ acc.map Prod.fst ∨ ∃ e ∈ l, e.1 = x) := by
  intro l
  induction l with
  | nil =>
    intro acc x
    simp
  | cons e rest ih =>
    intro acc x
    rw [List.foldl_cons, ih, mem_keys_insertSchema]
    constructor
    · rintro ((h | h) | h)
      · exact Or.inl h
      · exact Or.inr ⟨e, by simp, h.symm⟩
      · rcases h with ⟨e2, he2, hx⟩
        exact Or.inr ⟨e2, by simp [he2], hx⟩
    · rintro (h | ⟨e2, he2, hx⟩)
      · exact Or.inl (Or.inl h)
      · rcases List.mem_cons.mp he2 with rfl | he2
        · exact Or.inl (Or.inr hx.symm)
        · exact Or.inr ⟨e2, he2, hx⟩

theorem mem_keys_toSchema (G : DiGraph NodeId) (x : NodeId) :
    x ∈ (toSchema G).map Prod.fst ↔ ∃ y, G.adj x y := by
  unfold toSchema
  rw [mem_keys_schemaFold]
  constructor
  · rintro (h | ⟨e, he, rfl⟩)
    · simp at h
    · exact ⟨e.2.1, e.2.2, he⟩
  · rintro ⟨y, d, hmem⟩
    exact Or.inr ⟨(x, y, d), hmem, rfl⟩

def ppC8 : GenParams :=
  { n := 3
    p := ⟨3, 2, by decide, by decide⟩
    rnd := fun _ _ => ⟨9, 10, by decide, by decide⟩
    dur2 := fun _ _ => 5
    dur3 := fun _ => 5
    durV := fun _ => 5
    ordering := [0, 1, 2]
    pickU := fun s => enumSet s
    pickR := fun s => enumSet s }

theorem ppC8_wf : GenWF ppC8 := by
  refine ⟨?_, ?_, ?_⟩
  · show ([0, 1, 2] : List Nat).Perm (List.range 3)
    have h : List.range 3 = [0, 1, 2] := by decide
    rw [h]
  · intro s
    exact enumSet_spec s
  · intro s
    exact enumSet_spec s

/-- C1: after generation completes, for every `numNodes ≥ 1` and every
`edgeProbability` in `[0, 1]` (and every outcome of the random draws and
set iteration orders), the produced graph has exactly one node of
in-degree 0, namely the resolved source (possibly the synthetic virtual
node), and every node of the graph is reachable from that source via
directed edges. -/
theorem generated_graph_single_source_all_reachable (pp : GenParams)
    (hwf : GenWF pp) (hn : 1 ≤ pp.n) (hp0 : (0:ℚ) ≤ pp.p) (hp1 : pp.p ≤ 1) :
    (generateDAG pp).2 ∈ (generateDAG pp).1.nodes ∧
    (∀ z ∈ (generateDAG pp).1.nodes,
      ((generateDAG pp).1.inDegB z = 0 ↔ z = (generateDAG pp).2)) ∧
    (∀ v ∈ (generateDAG pp).1.nodes,
      Relation.ReflTransGen (generateDAG pp).1.adj (generateDAG pp).2 v) := by
  have h := generateDAG_final pp hwf hn
  refine ⟨h.hsrc, h.huniq, ?_⟩
  exact DiGraph.reachable_of_unique_source _ h.hacyc h.hWF.srcClosed _
    (fun z hz hdeg => (h.huniq z hz).mp hdeg)

theorem generated_graph_single_source_all_reachable_witness :
    (generateDAG ppC3).2 ∈ (generateDAG ppC3).1.nodes ∧
    (∀ z ∈ (generateDAG ppC3).1.nodes,
      ((generateDAG ppC3).1.inDegB z = 0 ↔ z = (generateDAG ppC3).2)) ∧
    (∀ v ∈ (generateDAG ppC3).1.nodes,
      Relation.ReflTransGen (generateDAG ppC3).1.adj (generateDAG ppC3).2 v) :=
  generated_graph_single_source_all_reachable ppC3 ppC3_wf (by decide) (by decide) (by decide)

/-- C3 (amended): the claim as stated — the edge set is acyclic at
*every* point of the generation algorithm — fails at the probe points of
the repair pass (see the counterexample); what holds is that the graph is
acyclic after step 2, at the end of every completed repair iteration
(every edge the repair pass keeps preserves acyclicity), and in the final
graph, virtual-source edges included, for every `numNodes ≥ 1` and every
`edgeProbability`. -/
theorem generation_acyclic_at_committed_points (pp : GenParams)
    (hwf : GenWF pp) (hn : 1 ≤ pp.n) :
    (baseGraph pp).isAcyclic = true ∧
    (∀ g ∈ generationIters pp, g.isAcyclic = true) ∧
    (generateDAG pp).1.isAcyclic = true := by
  refine ⟨baseGraph_isAcyclic pp hwf.hord, ?_, (generateDAG_final pp hwf hn).hacyc⟩
  intro g hg
  have h := (genConnectedNat_good pp hwf hn).2 g hg
  exact h.2.2.2

theorem generation_acyclic_at_committed_points_witness :
    (baseGraph ppC3).isAcyclic = true ∧
    (∀ g ∈ generationIters ppC3, g.isAcyclic = true) ∧
    (generateDAG ppC3).1.isAcyclic = true :=
  generation_acyclic_at_committed_points ppC3 ppC3_wf (by decide)

/-- C3 (counterexample): a concrete legal run (`numNodes = 3`,
`edgeProbability = 1/2`, ordering `[0, 1, 2]`, step-2 edge `1 → 2` only)
in which the repair pass, while probing the edge `2 → 1`, transiently
holds a graph containing the cycle `1 → 2 → 1`: so the edge set is *not*
acyclic at every point in time of the generation algorithm. -/
theorem generation_transient_cycle_counterexample :
    GenWF ppC3 ∧ 1 ≤ ppC3.n ∧ (0:ℚ) ≤ ppC3.p ∧ ppC3.p ≤ 1 ∧
      ¬ (∀ g ∈ generationSnaps ppC3, g.isAcyclic = true) := by
  refine ⟨ppC3_wf, by decide, by decide, by decide, ?_⟩
  intro h
  have h2 : (generationSnaps ppC3).all (fun g => g.isAcyclic) = true :=
    List.all_eq_true.mpr (fun g hg => h g hg)
  have h3 : (generationSnaps ppC3).all (fun g => g.isAcyclic) = false := by decide
  rw [h2] at h3
  exact Bool.noConfusion h3

/-- C8: the code does *not* fail fast on a malformed configuration.  With
`numNodes = 3` and `edgeProbability = 3/2 > 1` (and any legal values of
the random draws), generation silently completes and produces a complete
3-node DAG with a resolved source — no configuration error is raised at
entry.  (For `numNodes ≤ 0` the code instead crashes with an uncaught
IndexError at `ordering[0]` in the repair pass, after steps 1-2 already
ran, which is likewise not a fail-fast configuration error.) -/
theorem invalid_probability_silently_generates :
    GenWF ppC8 ∧ (1:ℚ) < ppC8.p ∧
    (∀ i j, (0:ℚ) ≤ ppC8.rnd i j ∧ ppC8.rnd i j < 1) ∧
    (generateDAG ppC8).1.edges.length = 3 ∧
    (generateDAG ppC8).1.nodes.length = 3 ∧
    (generateDAG ppC8).1.isAcyclic = true ∧
    (generateDAG ppC8).2 = NodeId.node 0 := by
  refine ⟨ppC8_wf, by decide, ?_, by decide, by decide, by decide, by decide⟩
  intro i j
  constructor
  · show (0:ℚ) ≤ (⟨9, 10, by decide, by decide⟩ : ℚ)
    decide
  · show (⟨9, 10, by decide, by decide⟩ : ℚ) < 1
    decide

/-- C9: for every generated graph, flattening the adjacency-list schema
into its `(node, successor, duration)` triples yields exactly the edge
list of the graph with its durations: a permutation of the edge list,
with no duplicates. -/
theorem schema_triples_match_edges (pp : GenParams)
    (hwf : GenWF pp) (hn : 1 ≤ pp.n) :
    (schemaTriples (toSchema (generateDAG pp).1)).Perm (generateDAG pp).1.edges ∧
    (schemaTriples (toSchema (generateDAG pp).1)).Nodup := by
  have hperm := schemaTriples_toSchema (generateDAG pp).1
  refine ⟨hperm, ?_⟩
  have hkeys := (generateDAG_final pp hwf hn).hkeys
  have hedges : (generateDAG pp).1.edges.Nodup := by
    have := hkeys
    unfold DiGraph.keys at this
    exact List.Nodup.of_map _ this
  exact hperm.nodup_iff.mpr hedges

theorem schema_triples_match_edges_witness :
    (schemaTriples (toSchema (generateDAG ppC3).1)).Perm (generateDAG ppC3).1.edges ∧
    (schemaTriples (toSchema (generateDAG ppC3).1)).Nodup :=
  schema_triples_match_edges ppC3 ppC3_wf (by decide)

/-- C10: the adjacency schema's key set is exactly the set of nodes with
at least one outgoing edge; every sink is absent from the keys, and the
keys are a strict subset of the node set (a sink always exists). -/
theorem schema_keys_are_nonsink_nodes (pp : GenParams)
    (hwf : GenWF pp) (hn : 1 ≤ pp.n) :
    (∀ u, u ∈ (toSchema (generateDAG pp).1).map Prod.fst ↔
      (u ∈ (generateDAG pp).1.nodes ∧ (generateDAG pp).1.outDegB u ≠ 0)) ∧
    (∀ u ∈ (generateDAG pp).1.nodes, (generateDAG pp).1.outDegB u = 0 →
      u ∉ (toSchema (generateDAG pp).1).map Prod.fst) ∧
    (∃ u ∈ (generateDAG pp).1.nodes, u ∉ (toSchema (generateDAG pp).1).map Prod.fst) := by
  have h := generateDAG_final pp hwf hn
  have hmain : ∀ u, u ∈ (toSchema (generateDAG pp).1).map Prod.fst ↔
      (u ∈ (generateDAG pp).1.nodes ∧ (generateDAG pp).1.outDegB u ≠ 0) := by
    intro u
    rw [mem_keys_toSchema]
    constructor
    · rintro ⟨y, hadj⟩
      refine ⟨(h.hWF u y hadj).1, ?_⟩
      intro h0
      exact (DiGraph.outDegB_eq_zero_iff _ u).mp h0 y hadj
    · rintro ⟨_, hdeg⟩
      by_contra hno
      push_neg at hno
      exact hdeg ((DiGraph.outDegB_eq_zero_iff _ u).mpr hno)
  refine ⟨hmain, ?_, ?_⟩
  · intro u _ hdeg hmem
    exact ((hmain u).mp hmem).2 hdeg
  · rcases DiGraph.exists_sink_node (generateDAG pp).1 h.hacyc h.hWF.tgtClosed h.hne
      with ⟨z, hz, hdeg⟩
    refine ⟨z, hz, ?_⟩
    intro hmem
    exact ((hmain z).mp hmem).2 hdeg

theorem schema_keys_are_nonsink_nodes_witness :
    (∀ u, u ∈ (toSchema (generateDAG ppC3).1).map Prod.fst ↔
      (u ∈ (generateDAG ppC3).1.nodes ∧ (generateDAG ppC3).1.outDegB u ≠ 0)) ∧
    (∀ u ∈ (generateDAG ppC3).1.nodes, (generateDAG ppC3).1.outDegB u = 0 →
      u ∉ (toSchema (generateDAG ppC3).1).map Prod.fst) ∧
    (∃ u ∈ (generateDAG ppC3).1.nodes, u ∉ (toSchema (generateDAG ppC3).1).map Prod.fst) :=
  schema_keys_are_nonsink_nodes ppC3 ppC3_wf (by decide)

/-! ## Embedding of WorkflowExecutor (`workflow_executor.py`)

The asyncio executor is a cooperative single-thread scheduler: a running
`_run_node_task` coroutine is split at its await points into four atomic
blocks, and the `async with self.lock` bodies contain no awaits, so each
runs atomically.  A task for a node is therefore a phase counter:

* phase 0: task created (`asyncio.create_task` / the initial call);
* phase 1: the first lock block ran (`active_tasks`, `max_parallelism`);
* phase 2: the strategy call was issued (`await self.strategy.execute`
  with the empty input list and the static incoming-duration sum);
* phase 3: the call returned or raised; `results[node]` and
  `timings[node]` were assigned;
* phase 4: the final lock block ran (decrement each successor's
  in-degree, append the result to its `child_inputs`, and create a task
  for every successor whose in-degree reached 0).

The scheduler nondeterminism is which live task advances next; the
elapsed time recorded at phase 3 is an arbitrary rational. -/

/-- Dict lookup with default (`d.get(k, default)` / `defaultdict`). -/
def getA {β : Type} (l : List (NodeId × β)) (k : NodeId) (d : β) : β :=
  (l.find? (fun pr => decide (pr.1 = k))).elim d (fun pr => pr.2)

/-- Dict assignment `d[k] = v`: update in place, else append. -/
def setA {β : Type} : List (NodeId × β) → NodeId → β → List (NodeId × β)
  | [], k, v => [(k, v)]
  | (k0, v0) :: t, k, v => if k0 = k then (k, v) :: t else (k0, v0) :: setA t k v

/-- Duration attribute of the edge `(u, v)`:
`G.edges[(u, v)]['duration']`. -/
def edgeDuration (G : DiGraph NodeId) (u v : NodeId) : Nat :=
  (G.edges.find? (fun e => decide (e.1 = u ∧ e.2.1 = v))).elim 0 (fun e => e.2.2)

/-- The `total_duration` computed by `_run_node_task` (lines 56-61): the
durations of the edges from *all* predecessors, summed, taken from the
static graph. -/
def budget (G : DiGraph NodeId) (u : NodeId) : Nat :=
  ((G.predList u).map (fun p => edgeDuration G p u)).sum

/-- The recorded result of a node: the strategy's return value, or the
error-marker string built by the `except` handler (line 66). -/
def runStrat (strat : NodeId → List String → Nat → Except String String)
    (G : DiGraph NodeId) (u : NodeId) : String :=
  match strat u [] (budget G u) with
  | Except.ok r => r
  | Except.error e => "ERROR: " ++ e

/-- The mutable state of one `run()` invocation. -/
structure ExecState where
  tasks : List (NodeId × Nat)
  results : List (NodeId × String)
  timings : List (NodeId × ℚ)
  childInputs : List (NodeId × List String)
  inDeg : List (NodeId × Int)
  activeTasks : Int
  maxParallelism : Int
  calls : List (NodeId × List String × Nat)

/-- Successor bookkeeping for one successor `v` of a finished node
(lines 79-85): decrement its in-degree, append the finished node's
result, and create a task when the in-degree reaches exactly 0. -/
def processSucc (res : String)
    (acc : List (NodeId × Int) × List (NodeId × List String) × List (NodeId × Nat))
    (v : NodeId) :
    List (NodeId × Int) × List (NodeId × List String) × List (NodeId × Nat) :=
  match acc with
  | (deg, ci, tk) =>
    let d := getA deg v 0 - 1
    let deg2 := setA deg v d
    let ci2 := setA ci v (getA ci v [] ++ [res])
    let tk2 := if d = 0 then tk ++ [(v, 0)] else tk
    (deg2, ci2, tk2)

/-- One scheduler step: advance the `i`-th live task by one atomic block;
`t` is the elapsed-time value recorded if this is the recording block. -/
def advance (G : DiGraph NodeId)
    (strat : NodeId → List String → Nat → Except String String)
    (s : ExecState) (i : Nat) (t : ℚ) : Option ExecState :=
  match s.tasks.get? i with
  | none => none
  | some (u, ph) =>
    if ph = 0 then
      some { s with
        tasks := s.tasks.set i (u, 1)
        activeTasks := s.activeTasks + 1
        maxParallelism := max s.maxParallelism (s.activeTasks + 1) }
    else if ph = 1 then
      some { s with
        tasks := s.tasks.set i (u, 2)
        calls := s.calls ++ [(u, ([] : List String), budget G u)] }
    else if ph = 2 then
      some { s with
        tasks := s.tasks.set i (u, 3)
        results := setA s.results u (runStrat strat G u)
        timings := setA s.timings u t }
    else if ph = 3 then
      match (G.succList u).foldl (processSucc (runStrat strat G u)) (s.inDeg, s.childInputs, s.tasks) with
      | (deg2, ci2, tk2) =>
        some { s with
          tasks := tk2.set i (u, 4)
          inDeg := deg2
          childInputs := ci2
          activeTasks := s.activeTasks - 1 }
    else none

/-- The state at the start of `run()`: the constructor state of
`WorkflowExecutor` plus the initial task for the source node. -/
def initState (G : DiGraph NodeId) (src : NodeId) : ExecState :=
  { tasks := [(src, 0)]
    results := []
    timings := []
    childInputs := []
    inDeg := G.nodes.map (fun v => (v, (G.inDegB v : Int)))
    activeTasks := 0
    maxParallelism := 0
    calls := [] }

/-- One step of the scheduler, as a relation. -/
def StepRel (G : DiGraph NodeId)
    (strat : NodeId → List String → Nat → Except String String)
    (s s2 : ExecState) : Prop :=
  ∃ i t, advance G strat s i t = some s2

/-- States reachable within one `run()` invocation. -/
def ReachState (G : DiGraph NodeId)
    (strat : NodeId → List String → Nat → Except String String)
    (src : NodeId) (s : ExecState) : Prop :=
  Relation.ReflTransGen (StepRel G strat) (initState G src) s

/-- Executable scheduler: run the listed actions in order. -/
def execTrace (G : DiGraph NodeId)
    (strat : NodeId → List String → Nat → Except String String) :
    ExecState → List (Nat × ℚ) → Option ExecState
  | s, [] => some s
  | s, a :: rest =>
    match advance G strat s a.1 a.2 with
    | none => none
    | some s2 => execTrace G strat s2 rest

/-- A state with no runnable task: every created task has finished its
final block.  `run()`'s polling wait can only return in such a state. -/
def isTerminal (s : ExecState) : Bool :=
  s.tasks.all (fun pr => decide (pr.2 = 4))

theorem getA_setA_same {β : Type} (k : NodeId) (v : β) (d : β) :
    ∀ l : List (NodeId × β), getA (setA l k v) k d = v := by
  intro l
  induction l with
  | nil =>
    show getA [(k, v)] k d = v
    unfold getA
    simp
  | cons hd t ih =>
    rcases hd with ⟨k0, v0⟩
    rw [setA]
    by_cases h : k0 = k
    · rw [if_pos h]
      unfold getA
      simp
    · rw [if_neg h]
      unfold getA
      rw [List.find?_cons_of_neg _ (by simpa using h)]
      exact ih

theorem getA_setA_other {β : Type} (k : NodeId) (v : β) (k2 : NodeId) (d : β)
    (h : k2 ≠ k) : ∀ l : List (NodeId × β), getA (setA l k v) k2 d = getA l k2 d := by
  intro l
  induction l with
  | nil =>
    show getA [(k, v)] k2 d = getA [] k2 d
    unfold getA
    rw [List.find?_cons_of_neg _ (by simpa using fun h2 => h h2.symm)]
  | cons hd t ih =>
    rcases hd with ⟨k0, v0⟩
    rw [setA]
    by_cases hk : k0 = k
    · rw [if_pos hk]
      subst hk
      unfold getA
      rw [List.find?_cons_of_neg _ (by simpa using fun h2 => h h2.symm)]
      rw [List.find?_cons_of_neg _ (by simpa using fun h2 => h h2.symm)]
    · rw [if_neg hk]
      by_cases hk2 : k0 = k2
      · subst hk2
        unfold getA
        rw [List.find?_cons_of_pos _ (by simp), List.find?_cons_of_pos _ (by simp)]
      · unfold getA
        rw [List.find?_cons_of_neg _ (by simpa using hk2),
          List.find?_cons_of_neg _ (by simpa using hk2)]
        exact ih

theorem mem_keys_setA {β : Type} (k : NodeId) (v : β) (x : NodeId) :
    ∀ l : List (NodeId × β),
      (x ∈ (setA l k v).map Prod.fst ↔ x ∈ l.map Prod.fst ∨ x = k) := by
  intro l
  induction l with
  | nil => show x ∈ [(k, v)].map Prod.fst ↔ _; simp
  | cons hd t ih =>
    rcases hd with ⟨k0, v0⟩
    rw [setA]
    by_cases h : k0 = k
    · subst h
      rw [if_pos rfl]
      simp only [List.map_cons, List.mem_cons]
      tauto
    · rw [if_neg h]
      simp only [List.map_cons, List.mem_cons, ih]
      tauto

theorem keys_setA_of_mem {β : Type} (k : NodeId) (v : β) :
    ∀ l : List (NodeId × β), k ∈ l.map Prod.fst →
      (setA l k v).map Prod.fst = l.map Prod.fst := by
  intro l
  induction l with
  | nil => intro h; simp at h
  | cons hd t ih =>
    rcases hd with ⟨k0, v0⟩
    intro h
    rw [setA]
    by_cases hk : k0 = k
    · rw [if_pos hk, List.map_cons, List.map_cons, hk]
    · rw [if_neg hk, List.map_cons, List.map_cons, ih]
      rw [List.map_cons] at h
      rcases List.mem_cons.mp h with h2 | h2
      · exact absurd h2.symm hk
      · exact h2

theorem mem_setA_elim {β : Type} (k : NodeId) (v : β) (pr : NodeId × β) :
    ∀ l : List (NodeId × β), pr ∈ setA l k v → pr ∈ l ∨ pr = (k, v) := by
  intro l
  induction l with
  | nil =>
    intro h
    rcases List.mem_singleton.mp h with rfl
    exact Or.inr rfl
  | cons hd t ih =>
    rcases hd with ⟨k0, v0⟩
    rw [setA]
    by_cases h : k0 = k
    · rw [if_pos h]
      intro hm
      rcases List.mem_cons.mp hm with rfl | hm
      · exact Or.inr rfl
      · exact Or.inl (List.mem_cons.mpr (Or.inr hm))
    · rw [if_neg h]
      intro hm
      rcases List.mem_cons.mp hm with rfl | hm
      · exact Or.inl (List.mem_cons.mpr (Or.inl rfl))
      · rcases ih hm with h2 | h2
        · exact Or.inl (List.mem_cons.mpr (Or.inr h2))
        · exact Or.inr h2

theorem getA_eq_of_mem {β : Type} {k : NodeId} {w : β} (d : β) :
    ∀ l : List (NodeId × β), (l.map Prod.fst).Nodup → (k, w) ∈ l → getA l k d = w := by
  intro l
  induction l with
  | nil => intro _ h; simp at h
  | cons hd t ih =>
    rcases hd with ⟨k0, v0⟩
    intro hnd hm
    rcases List.mem_cons.mp hm with heq | hm
    · rcases Prod.mk.injEq .. ▸ heq with ⟨h1, h2⟩
      subst h1; subst h2
      unfold getA
      rw [List.find?_cons_of_pos _ (by simp)]
      rfl
    · have hk : k0 ≠ k := by
        intro h0
        subst h0
        rw [List.map_cons] at hnd
        exact (List.nodup_cons.mp hnd).1 (List.mem_map.mpr ⟨(k0, w), hm, rfl⟩)
      unfold getA
      rw [List.find?_cons_of_neg _ (by simpa using hk)]
      exact ih (List.nodup_cons.mp (List.map_cons _ _ _ ▸ hnd)).2 hm

theorem getA_eq_default {β : Type} (k : NodeId) (d : β) :
    ∀ l : List (NodeId × β), k ∉ l.map Prod.fst → getA l k d = d := by
  intro l
  induction l with
  | nil => intro _; rfl
  | cons hd t ih =>
    rcases hd with ⟨k0, v0⟩
    intro h
    have hk : k0 ≠ k := by
      intro h0
      exact h (by simp [h0])
    unfold getA
    rw [List.find?_cons_of_neg _ (by simpa using hk)]
    exact ih (fun h2 => h (by simp [h2]))

theorem mem_of_getA {β : Type} (k : NodeId) (d : β) :
    ∀ l : List (NodeId × β), k ∈ l.map Prod.fst → (k, getA l k d) ∈ l := by
  intro l
  induction l with
  | nil => intro h; simp at h
  | cons hd t ih =>
    rcases hd with ⟨k0, v0⟩
    intro h
    by_cases hk : k0 = k
    · subst hk
      unfold getA
      rw [List.find?_cons_of_pos _ (by simp)]
      exact List.mem_cons.mpr (Or.inl rfl)
    · unfold getA
      rw [List.find?_cons_of_neg _ (by simpa using hk)]
      refine List.mem_cons.mpr (Or.inr (ih ?_))
      rw [List.map_cons] at h
      rcases List.mem_cons.mp h with h2 | h2
      · exact absurd h2.symm hk
      · exact h2

theorem list_set_same {γ : Type} :
    ∀ (l : List γ) (i : Nat) (a : γ), l.get? i = some a → l.set i a = l := by
  intro l
  induction l with
  | nil => intro i a h; simp at h
  | cons hd t ih =>
    intro i a h
    cases i with
    | zero =>
      simp only [List.get?_cons_zero, Option.some.injEq] at h
      rw [h, List.set_cons_zero]
    | succ j =>
      simp only [List.get?_cons_succ] at h
      rw [List.set_cons_succ, ih j a h]

theorem map_fst_set {β : Type} (l : List (NodeId × β)) (i : Nat) (u : NodeId)
    (ph ph2 : β) (h : l.get? i = some (u, ph)) :
    (l.set i (u, ph2)).map Prod.fst = l.map Prod.fst := by
  rw [List.map_set]
  apply list_set_same
  rw [List.get?_map, h]
  rfl

theorem keys_setA_of_not_mem {β : Type} (k : NodeId) (v : β) :
    ∀ l : List (NodeId × β), k ∉ l.map Prod.fst →
      (setA l k v).map Prod.fst = l.map Prod.fst ++ [k] := by
  intro l
  induction l with
  | nil => intro _; rfl
  | cons hd t ih =>
    rcases hd with ⟨k0, v0⟩
    intro h
    have hk : k0 ≠ k := fun h0 => h (by simp [h0])
    rw [setA, if_neg hk, List.map_cons, List.map_cons, List.cons_append,
      ih (fun h2 => h (by simp [h2]))]

theorem keys_nodup_setA {β : Type} (k : NodeId) (v : β) (l : List (NodeId × β))
    (h : (l.map Prod.fst).Nodup) : ((setA l k v).map Prod.fst).Nodup := by
  by_cases hk : k ∈ l.map Prod.fst
  · rw [keys_setA_of_mem k v l hk]
    exact h
  · rw [keys_setA_of_not_mem k v l hk, List.nodup_append]
    refine ⟨h, List.nodup_singleton _, ?_⟩
    intro a ha ha2
    rcases List.mem_singleton.mp ha2 with rfl
    exact hk ha

theorem mem_key_of_mem {β : Type} {pr : NodeId × β} {l : List (NodeId × β)}
    (h : pr ∈ l) : pr.1 ∈ l.map Prod.fst :=
  List.mem_map.mpr ⟨pr, h, rfl⟩

theorem pair_unique_of_nodup {β : Type} :
    ∀ (l : List (NodeId × β)), (l.map Prod.fst).Nodup →
      ∀ u c c2, (u, c) ∈ l → (u, c2) ∈ l → c = c2 := by
  intro l
  induction l with
  | nil => intro _ u c c2 h; simp at h
  | cons hd t ih =>
    intro hnd u c c2 h1 h2
    rw [List.map_cons, List.nodup_cons] at hnd
    rcases List.mem_cons.mp h1 with he1 | h1
    · rcases List.mem_cons.mp h2 with he2 | h2
      · have h3 : (u, c) = (u, c2) := he1.trans he2.symm
        exact (Prod.mk.injEq .. ▸ h3).2
      · exfalso
        apply hnd.1
        have h3 : u ∈ List.map Prod.fst t := mem_key_of_mem h2
        rw [← he1]
        exact h3
    · rcases List.mem_cons.mp h2 with he2 | h2
      · exfalso
        apply hnd.1
        have h3 : u ∈ List.map Prod.fst t := mem_key_of_mem h1
        rw [← he2]
        exact h3
      · exact ih hnd.2 u c c2 h1 h2

theorem mem_set_upd :
    ∀ (l : List (NodeId × Nat)) (i : Nat) (u : NodeId) (ph ph2 : Nat),
      l.get? i = some (u, ph) → (l.map Prod.fst).Nodup →
      ∀ p c, ((p, c) ∈ l.set i (u, ph2) ↔ ((p ≠ u ∧ (p, c) ∈ l) ∨ (p = u ∧ c = ph2))) := by
  intro l
  induction l with
  | nil => intro i u ph ph2 h; simp at h
  | cons hd t ih =>
    intro i u ph ph2 hget hnd p c
    rw [List.map_cons, List.nodup_cons] at hnd
    cases i with
    | zero =>
      simp only [List.get?_cons_zero, Option.some.injEq] at hget
      have hk : hd.1 = u := by rw [hget]
      rw [List.set_cons_zero]
      constructor
      · intro hm
        rcases List.mem_cons.mp hm with he | hm
        · rcases Prod.mk.injEq .. ▸ he with ⟨hp1, hp2⟩
          exact Or.inr ⟨hp1, hp2⟩
        · refine Or.inl ⟨?_, List.mem_cons.mpr (Or.inr hm)⟩
          intro h0
          apply hnd.1
          rw [hk, ← h0]
          exact mem_key_of_mem hm
      · rintro (⟨hp, hm⟩ | ⟨rfl, rfl⟩)
        · rcases List.mem_cons.mp hm with he | hm
          · exfalso
            apply hp
            have h3 : p = hd.1 := by rw [← he]
            exact h3.trans hk
          · exact List.mem_cons.mpr (Or.inr hm)
        · exact List.mem_cons.mpr (Or.inl rfl)
    | succ j =>
      simp only [List.get?_cons_succ] at hget
      have hk0 : hd.1 ≠ u := by
        intro h0
        apply hnd.1
        rw [h0]
        exact mem_key_of_mem (List.get?_mem hget)
      rw [List.set_cons_succ]
      constructor
      · intro hm
        rcases List.mem_cons.mp hm with he | hm
        · refine Or.inl ⟨?_, List.mem_cons.mpr (Or.inl he)⟩
          intro h0
          apply hk0
          have h3 : hd.1 = p := by rw [← he]
          exact h3.trans h0
        · rcases (ih j u ph ph2 hget hnd.2 p c).mp hm with ⟨hp, hm⟩ | h
          · exact Or.inl ⟨hp, List.mem_cons.mpr (Or.inr hm)⟩
          · exact Or.inr h
      · rintro (⟨hp, hm⟩ | ⟨hpu, hc⟩)
        · rcases List.mem_cons.mp hm with he | hm
          · exact List.mem_cons.mpr (Or.inl he)
          · exact List.mem_cons.mpr
              (Or.inr ((ih j u ph ph2 hget hnd.2 p c).mpr (Or.inl ⟨hp, hm⟩)))
        · exact List.mem_cons.mpr
            (Or.inr ((ih j u ph ph2 hget hnd.2 p c).mpr (Or.inr ⟨hpu, hc⟩)))

theorem succList_nodup (G : DiGraph NodeId) (hkeys : G.keys.Nodup) (u : NodeId) :
    (G.succList u).Nodup := by
  unfold DiGraph.succList
  unfold DiGraph.keys at hkeys
  revert hkeys
  generalize G.edges = es
  induction es with
  | nil => intro _; exact List.nodup_nil
  | cons e t ih =>
    intro hkeys
    rw [List.map_cons, List.nodup_cons] at hkeys
    rw [List.filterMap_cons]
    by_cases he : e.1 = u
    · rw [if_pos he]
      rw [List.nodup_cons]
      refine ⟨?_, ih hkeys.2⟩
      intro hmem
      rw [List.mem_filterMap] at hmem
      rcases hmem with ⟨e2, he2, hsome⟩
      by_cases h2 : e2.1 = u
      · rw [if_pos h2, Option.some.injEq] at hsome
        apply hkeys.1
        rw [List.mem_map]
        refine ⟨e2, he2, ?_⟩
        rw [Prod.mk.injEq]
        exact ⟨h2.trans he.symm, hsome⟩
      · rw [if_neg h2] at hsome
        exact Option.noConfusion hsome
    · rw [if_neg he]
      exact ih hkeys.2

theorem predList_nodup (G : DiGraph NodeId) (hkeys : G.keys.Nodup) (v : NodeId) :
    (G.predList v).Nodup := by
  unfold DiGraph.predList
  unfold DiGraph.keys at hkeys
  revert hkeys
  generalize G.edges = es
  induction es with
  | nil => intro _; exact List.nodup_nil
  | cons e t ih =>
    intro hkeys
    rw [List.map_cons, List.nodup_cons] at hkeys
    rw [List.filterMap_cons]
    by_cases he : e.2.1 = v
    · rw [if_pos he]
      rw [List.nodup_cons]
      refine ⟨?_, ih hkeys.2⟩
      intro hmem
      rw [List.mem_filterMap] at hmem
      rcases hmem with ⟨e2, he2, hsome⟩
      by_cases h2 : e2.2.1 = v
      · rw [if_pos h2, Option.some.injEq] at hsome
        apply hkeys.1
        rw [List.mem_map]
        refine ⟨e2, he2, ?_⟩
        rw [Prod.mk.injEq]
        exact ⟨hsome, (h2.trans he.symm)⟩
      · rw [if_neg h2] at hsome
        exact Option.noConfusion hsome
    · rw [if_neg he]
      exact ih hkeys.2

theorem length_filter_pred_or {γ : Type} [DecidableEq γ] (u : γ) (p1 : γ → Bool) :
    ∀ l : List γ, l.Nodup → ¬ p1 u = true →
      ((l.filter (fun x => p1 x || decide (x = u))).length
        = (l.filter p1).length + (if u ∈ l then 1 else 0)) := by
  intro l
  induction l with
  | nil => intro _ _; simp
  | cons x t ih =>
    intro hnd hp1
    rw [List.nodup_cons] at hnd
    rw [List.filter_cons, List.filter_cons]
    by_cases hx : x = u
    · have hq : (p1 x || decide (x = u)) = true := by
        rw [hx]
        simp
      have hp1x : ¬ p1 x = true := by rw [hx]; exact hp1
      rw [if_pos hq, if_neg hp1x, List.length_cons, ih hnd.2 hp1]
      have hmem : u ∈ x :: t := List.mem_cons.mpr (Or.inl hx.symm)
      have hnmem : u ∉ t := by
        intro h0
        apply hnd.1
        rw [hx]
        exact h0
      rw [if_pos hmem, if_neg hnmem]
    · have hd2 : decide (x = u) = false := by simpa using hx
      have hiff : (u ∈ x :: t) ↔ (u ∈ t) := by
        rw [List.mem_cons]
        constructor
        · rintro (h0 | h0)
          · exact absurd h0.symm hx
          · exact h0
        · exact Or.inr
      by_cases hpx : p1 x = true
      · rw [if_pos (by rw [hd2, Bool.or_false]; exact hpx), if_pos hpx]
        rw [List.length_cons, List.length_cons, ih hnd.2 hp1]
        by_cases hu : u ∈ t
        · rw [if_pos hu, if_pos (hiff.mpr hu)]
        · rw [if_neg hu, if_neg (fun h => hu (hiff.mp h))]
      · rw [if_neg (by rw [hd2, Bool.or_false]; exact hpx), if_neg hpx]
        rw [ih hnd.2 hp1]
        by_cases hu : u ∈ t
        · rw [if_pos hu, if_pos (hiff.mpr hu)]
        · rw [if_neg hu, if_neg (fun h => hu (hiff.mp h))]

theorem length_predList_eq_inDegB (G : DiGraph NodeId) (v : NodeId) :
    (G.predList v).length = G.inDegB v := by
  unfold DiGraph.predList DiGraph.inDegB
  induction G.edges with
  | nil => rfl
  | cons e t ih =>
    rw [List.filterMap_cons, List.filter_cons]
    by_cases he : e.2.1 = v
    · rw [if_pos he, if_pos (by simpa using he), List.length_cons, List.length_cons, ih]
    · rw [if_neg he, if_neg (by simpa using he), ih]

theorem processSucc_fold (res : String) :
    ∀ (l : List NodeId), l.Nodup →
      ∀ (deg : List (NodeId × Int)) (ci : List (NodeId × List String))
        (tk : List (NodeId × Nat)),
      (∀ v, getA (l.foldl (processSucc res) (deg, ci, tk)).1 v 0
          = getA deg v 0 - (if v ∈ l then 1 else 0)) ∧
      (∀ v, getA (l.foldl (processSucc res) (deg, ci, tk)).2.1 v []
          = getA ci v [] ++ (if v ∈ l then [res] else [])) ∧
      (l.foldl (processSucc res) (deg, ci, tk)).2.2
          = tk ++ (l.filter (fun v => decide (getA deg v 0 - 1 = 0))).map (fun v => (v, 0)) := by
  intro l
  induction l with
  | nil =>
    intro _ deg ci tk
    refine ⟨?_, ?_, ?_⟩
    · intro v; simp
    · intro v; simp
    · simp
  | cons v rest ih =>
    intro hnd deg ci tk
    rw [List.nodup_cons] at hnd
    have hstep : processSucc res (deg, ci, tk) v
        = (setA deg v (getA deg v 0 - 1),
           setA ci v (getA ci v [] ++ [res]),
           if getA deg v 0 - 1 = 0 then tk ++ [(v, 0)] else tk) := rfl
    rw [List.foldl_cons, hstep]
    obtain ⟨ihdeg, ihci, ihtk⟩ := ih hnd.2 (setA deg v (getA deg v 0 - 1))
      (setA ci v (getA ci v [] ++ [res]))
      (if getA deg v 0 - 1 = 0 then tk ++ [(v, 0)] else tk)
    refine ⟨?_, ?_, ?_⟩
    · intro w
      rw [ihdeg w]
      by_cases hw : w = v
      · subst hw
        rw [getA_setA_same, if_pos (List.mem_cons.mpr (Or.inl rfl)), if_neg hnd.1]
        omega
      · rw [getA_setA_other _ _ _ _ hw]
        have hiff : (w ∈ v :: rest) ↔ (w ∈ rest) := by
          rw [List.mem_cons]
          constructor
          · rintro (h0 | h0)
            · exact absurd h0 hw
            · exact h0
          · exact Or.inr
        by_cases hwr : w ∈ rest
        · rw [if_pos hwr, if_pos (hiff.mpr hwr)]
        · rw [if_neg hwr, if_neg (fun h => hwr (hiff.mp h))]
    · intro w
      rw [ihci w]
      by_cases hw : w = v
      · subst hw
        rw [getA_setA_same, if_pos (List.mem_cons.mpr (Or.inl rfl)), if_neg hnd.1,
          List.append_nil]
      · rw [getA_setA_other _ _ _ _ hw]
        have hiff : (w ∈ v :: rest) ↔ (w ∈ rest) := by
          rw [List.mem_cons]
          constructor
          · rintro (h0 | h0)
            · exact absurd h0 hw
            · exact h0
          · exact Or.inr
        by_cases hwr : w ∈ rest
        · rw [if_pos hwr, if_pos (hiff.mpr hwr)]
        · rw [if_neg hwr, if_neg (fun h => hwr (hiff.mp h))]
    · rw [ihtk]
      have hfc : rest.filter (fun w => decide (getA (setA deg v (getA deg v 0 - 1)) w 0 - 1 = 0))
          = rest.filter (fun w => decide (getA deg w 0 - 1 = 0)) := by
        apply List.filter_congr
        intro w hw
        have hwv : w ≠ v := fun h0 => hnd.1 (h0 ▸ hw)
        rw [getA_setA_other _ _ _ _ hwv]
      rw [hfc, List.filter_cons]
      by_cases hc : getA deg v 0 - 1 = 0
      · rw [if_pos hc, if_pos (by simpa using hc), List.map_cons, List.append_assoc,
          List.singleton_append]
      · rw [if_neg hc, if_neg (by simpa using hc)]

/-- The inductive invariant of the executor's shared state: task list,
in-degree counters, results/timings, accumulated child inputs and
recorded strategy invocations, for a graph satisfying the generation
invariants. -/
structure ExecInv (G : DiGraph NodeId)
    (strat : NodeId → List String → Nat → Except String String)
    (src : NodeId) (s : ExecState) : Prop where
  tnodup : (s.tasks.map Prod.fst).Nodup
  tsub : ∀ pr ∈ s.tasks, pr.1 ∈ G.nodes
  phle : ∀ pr ∈ s.tasks, pr.2 ≤ 4
  degval : ∀ v ∈ G.nodes, getA s.inDeg v 0 =
    (G.inDegB v : Int) -
      ((G.predList v).filter (fun p => decide ((p, 4) ∈ s.tasks))).length
  spawned : ∀ v, v ∈ s.tasks.map Prod.fst ↔
    (v = src ∨ (v ∈ G.nodes ∧ G.inDegB v ≠ 0 ∧ getA s.inDeg v 0 = 0))
  rnodup : (s.results.map Prod.fst).Nodup
  rmem : ∀ v, v ∈ s.results.map Prod.fst ↔ ∃ ph, (v, ph) ∈ s.tasks ∧ 3 ≤ ph
  rval : ∀ pr ∈ s.results, pr.2 = runStrat strat G pr.1
  tmem : ∀ v, v ∈ s.timings.map Prod.fst ↔ v ∈ s.results.map Prod.fst
  timnodup : (s.timings.map Prod.fst).Nodup
  cival : ∀ v p, G.adj p v → (p, 4) ∈ s.tasks →
    runStrat strat G p ∈ getA s.childInputs v []
  callsinv : ∀ c ∈ s.calls, c.2.1 = ([] : List String) ∧ c.2.2 = budget G c.1

theorem execInv_init (G : DiGraph NodeId)
    (strat : NodeId → List String → Nat → Except String String)
    (src : NodeId) (hfg : FinalGood G src) :
    ExecInv G strat src (initState G src) := by
  have hdeg0 : ∀ v ∈ G.nodes, getA (initState G src).inDeg v 0 = (G.inDegB v : Int) := by
    intro v hv
    apply getA_eq_of_mem
    · show ((G.nodes.map (fun v => (v, (G.inDegB v : Int)))).map Prod.fst).Nodup
      rw [List.map_map]
      have : (Prod.fst ∘ fun v => (v, (G.inDegB v : Int))) = id := by
        funext x
        rfl
      rw [this, List.map_id]
      exact hfg.hnodesnd
    · exact List.mem_map.mpr ⟨v, hv, rfl⟩
  refine ⟨?_, ?_, ?_, ?_, ?_, ?_, ?_, ?_, ?_, ?_, ?_, ?_⟩
  · exact List.nodup_singleton _
  · rintro pr hpr
    rcases List.mem_singleton.mp hpr with rfl
    exact hfg.hsrc
  · rintro pr hpr
    rcases List.mem_singleton.mp hpr with rfl
    exact Nat.zero_le 4
  · intro v hv
    rw [hdeg0 v hv]
    have hfilter : (G.predList v).filter
        (fun p => decide ((p, 4) ∈ (initState G src).tasks)) = [] := by
      apply List.filter_eq_nil_iff.mpr
      intro p _
      rw [decide_eq_true_eq]
      intro hmem
      rcases List.mem_singleton.mp hmem with heq
      exact Nat.noConfusion (Prod.mk.injEq .. ▸ heq).2
    rw [hfilter]
    simp
  · intro v
    show v ∈ [src] ↔ _
    constructor
    · intro hv
      exact Or.inl (List.mem_singleton.mp hv)
    · rintro (rfl | ⟨hv, hne, hdeg⟩)
      · exact List.mem_singleton.mpr rfl
      · exfalso
        rw [hdeg0 v hv] at hdeg
        have : G.inDegB v = 0 := by exact_mod_cast hdeg
        exact hne this
  · exact List.nodup_nil
  · intro v
    constructor
    · intro h
      simp [initState] at h
    · rintro ⟨ph, hmem, hge⟩
      rcases List.mem_singleton.mp hmem with heq
      have h0 : ph = 0 := (Prod.mk.injEq .. ▸ heq).2
      omega
  · intro pr hpr
    simp [initState] at hpr
  · intro v
    constructor
    · intro h
      simp [initState] at h
    · intro h
      simp [initState] at h
  · exact List.nodup_nil
  · intro v p _ hmem
    rcases List.mem_singleton.mp hmem with heq
    exact absurd (Prod.mk.injEq .. ▸ heq).2 (by omega)
  · intro c hc
    simp [initState] at hc

theorem decide_or_eq (p q : Prop) [Decidable p] [Decidable q] :
    decide (p ∨ q) = (decide p || decide q) := by
  by_cases hp : p <;> by_cases hq : q <;> simp [hp, hq]

theorem exists_ge3_set_iff (tasks : List (NodeId × Nat))
    (hnd : (tasks.map Prod.fst).Nodup) (i : Nat) (u : NodeId) (ph ph2 : Nat)
    (hget : tasks.get? i = some (u, ph)) (hiff : 3 ≤ ph ↔ 3 ≤ ph2) (v : NodeId) :
    (∃ k, (v, k) ∈ tasks.set i (u, ph2) ∧ 3 ≤ k) ↔ (∃ k, (v, k) ∈ tasks ∧ 3 ≤ k) := by
  constructor
  · rintro ⟨k, hmem, hk⟩
    rcases (mem_set_upd tasks i u ph ph2 hget hnd v k).mp hmem with ⟨_, hm⟩ | ⟨rfl, rfl⟩
    · exact ⟨k, hm, hk⟩
    · exact ⟨ph, List.get?_mem hget, hiff.mpr hk⟩
  · rintro ⟨k, hmem, hk⟩
    by_cases hv : v = u
    · subst hv
      have hkp : k = ph := pair_unique_of_nodup tasks hnd v k ph hmem (List.get?_mem hget)
      exact ⟨ph2, (mem_set_upd tasks i v ph ph2 hget hnd v ph2).mpr (Or.inr ⟨rfl, rfl⟩),
        hiff.mp (hkp ▸ hk)⟩
    · exact ⟨k, (mem_set_upd tasks i u ph ph2 hget hnd v k).mpr (Or.inl ⟨hv, hmem⟩), hk⟩

theorem mem_p4_set_iff (tasks : List (NodeId × Nat))
    (hnd : (tasks.map Prod.fst).Nodup) (i : Nat) (u : NodeId) (ph ph2 : Nat)
    (hget : tasks.get? i = some (u, ph)) (hph : ph ≠ 4) (hph2 : ph2 ≠ 4) (p : NodeId) :
    ((p, 4) ∈ tasks.set i (u, ph2)) ↔ (p, 4) ∈ tasks := by
  constructor
  · intro hmem
    rcases (mem_set_upd tasks i u ph ph2 hget hnd p 4).mp hmem with ⟨_, hm⟩ | ⟨_, h4⟩
    · exact hm
    · exact absurd h4.symm hph2
  · intro hmem
    by_cases hp : p = u
    · subst hp
      have h4 : (4 : Nat) = ph := pair_unique_of_nodup tasks hnd p 4 ph hmem (List.get?_mem hget)
      exact absurd h4.symm hph
    · exact (mem_set_upd tasks i u ph ph2 hget hnd p 4).mpr (Or.inl ⟨hp, hmem⟩)

theorem filter_p4_congr (tasks tasks2 : List (NodeId × Nat))
    (h : ∀ p, ((p, 4) ∈ tasks2) ↔ (p, 4) ∈ tasks) (l : List NodeId) :
    l.filter (fun p => decide ((p, 4) ∈ tasks2)) = l.filter (fun p => decide ((p, 4) ∈ tasks)) := by
  apply List.filter_congr
  intro p _
  exact decide_eq_decide.mpr (h p)

theorem execInv_taskbump (G : DiGraph NodeId)
    (strat : NodeId → List String → Nat → Except String String) (src : NodeId)
    (s : ExecState) (hinv : ExecInv G strat src s) (i : Nat) (u : NodeId) (ph ph2 : Nat)
    (hget : s.tasks.get? i = some (u, ph)) (hph2le : ph2 ≤ 4)
    (hiff3 : 3 ≤ ph ↔ 3 ≤ ph2) (hph : ph ≠ 4) (hph2 : ph2 ≠ 4)
    (a2 m2 : Int) (newcalls : List (NodeId × List String × Nat))
    (hcalls : ∀ c ∈ newcalls, c.2.1 = ([] : List String) ∧ c.2.2 = budget G c.1) :
    ExecInv G strat src { s with
      tasks := s.tasks.set i (u, ph2)
      activeTasks := a2
      maxParallelism := m2
      calls := s.calls ++ newcalls } := by
  have hkeys : (s.tasks.set i (u, ph2)).map Prod.fst = s.tasks.map Prod.fst :=
    map_fst_set s.tasks i u ph ph2 hget
  have hp4 : ∀ p, ((p, 4) ∈ s.tasks.set i (u, ph2)) ↔ (p, 4) ∈ s.tasks :=
    mem_p4_set_iff s.tasks hinv.tnodup i u ph ph2 hget hph hph2
  refine ⟨?_, ?_, ?_, ?_, ?_, ?_, ?_, ?_, ?_, ?_, ?_, ?_⟩
  · show ((s.tasks.set i (u, ph2)).map Prod.fst).Nodup
    rw [hkeys]
    exact hinv.tnodup
  · intro pr hpr
    rcases List.mem_or_eq_of_mem_set hpr with h | h
    · exact hinv.tsub pr h
    · rw [h]
      exact hinv.tsub (u, ph) (List.get?_mem hget)
  · intro pr hpr
    rcases List.mem_or_eq_of_mem_set hpr with h | h
    · exact hinv.phle pr h
    · rw [h]
      exact hph2le
  · intro v hv
    show getA s.inDeg v 0 = _
    rw [hinv.degval v hv, filter_p4_congr s.tasks (s.tasks.set i (u, ph2)) hp4]
  · intro v
    show v ∈ (s.tasks.set i (u, ph2)).map Prod.fst ↔ _
    rw [hkeys]
    exact hinv.spawned v
  · exact hinv.rnodup
  · intro v
    show v ∈ s.results.map Prod.fst ↔ ∃ k, (v, k) ∈ s.tasks.set i (u, ph2) ∧ 3 ≤ k
    rw [exists_ge3_set_iff s.tasks hinv.tnodup i u ph ph2 hget hiff3 v]
    exact hinv.rmem v
  · exact hinv.rval
  · exact hinv.tmem
  · exact hinv.timnodup
  · intro v p hadj hmem
    exact hinv.cival v p hadj ((hp4 p).mp hmem)
  · intro c hc
    rcases List.mem_append.mp hc with hc | hc
    · exact hinv.callsinv c hc
    · exact hcalls c hc

theorem execInv_record (G : DiGraph NodeId)
    (strat : NodeId → List String → Nat → Except String String) (src : NodeId)
    (s : ExecState) (hinv : ExecInv G strat src s) (i : Nat) (u : NodeId)
    (hget : s.tasks.get? i = some (u, 2)) (t : ℚ) :
    ExecInv G strat src { s with
      tasks := s.tasks.set i (u, 3)
      results := setA s.results u (runStrat strat G u)
      timings := setA s.timings u t } := by
  have hkeys : (s.tasks.set i (u, 3)).map Prod.fst = s.tasks.map Prod.fst :=
    map_fst_set s.tasks i u 2 3 hget
  have hp4 : ∀ p, ((p, 4) ∈ s.tasks.set i (u, 3)) ↔ (p, 4) ∈ s.tasks :=
    mem_p4_set_iff s.tasks hinv.tnodup i u 2 3 hget (by omega) (by omega)
  refine ⟨?_, ?_, ?_, ?_, ?_, ?_, ?_, ?_, ?_, ?_, ?_, ?_⟩
  · show ((s.tasks.set i (u, 3)).map Prod.fst).Nodup
    rw [hkeys]
    exact hinv.tnodup
  · intro pr hpr
    rcases List.mem_or_eq_of_mem_set hpr with h | h
    · exact hinv.tsub pr h
    · rw [h]
      exact hinv.tsub (u, 2) (List.get?_mem hget)
  · intro pr hpr
    rcases List.mem_or_eq_of_mem_set hpr with h | h
    · exact hinv.phle pr h
    · rw [h]
      omega
  · intro v hv
    show getA s.inDeg v 0 = _
    rw [hinv.degval v hv, filter_p4_congr s.tasks (s.tasks.set i (u, 3)) hp4]
  · intro v
    show v ∈ (s.tasks.set i (u, 3)).map Prod.fst ↔ _
    rw [hkeys]
    exact hinv.spawned v
  · exact keys_nodup_setA u _ s.results hinv.rnodup
  · intro v
    show v ∈ (setA s.results u (runStrat strat G u)).map Prod.fst ↔
      ∃ k, (v, k) ∈ s.tasks.set i (u, 3) ∧ 3 ≤ k
    rw [mem_keys_setA]
    by_cases hv : v = u
    · subst hv
      constructor
      · intro _
        exact ⟨3, (mem_set_upd s.tasks i v 2 3 hget hinv.tnodup v 3).mpr
          (Or.inr ⟨rfl, rfl⟩), le_refl 3⟩
      · intro _
        exact Or.inr rfl
    · constructor
      · rintro (hm | hm)
        · rcases (hinv.rmem v).mp hm with ⟨k, hk, hk3⟩
          exact ⟨k, (mem_set_upd s.tasks i u 2 3 hget hinv.tnodup v k).mpr
            (Or.inl ⟨hv, hk⟩), hk3⟩
        · exact absurd hm hv
      · rintro ⟨k, hk, hk3⟩
        rcases (mem_set_upd s.tasks i u 2 3 hget hinv.tnodup v k).mp hk with ⟨_, hm⟩ | ⟨he, _⟩
        · exact Or.inl ((hinv.rmem v).mpr ⟨k, hm, hk3⟩)
        · exact absurd he hv
  · intro pr hpr
    rcases mem_setA_elim u (runStrat strat G u) pr s.results hpr with h | h
    · exact hinv.rval pr h
    · rw [h]
  · intro v
    show v ∈ (setA s.timings u t).map Prod.fst ↔
      v ∈ (setA s.results u (runStrat strat G u)).map Prod.fst
    rw [mem_keys_setA, mem_keys_setA, hinv.tmem v]
  · exact keys_nodup_setA u t s.timings hinv.timnodup
  · intro v p hadj hmem
    exact hinv.cival v p hadj ((hp4 p).mp hmem)
  · exact hinv.callsinv

theorem execInv_finish (G : DiGraph NodeId)
    (strat : NodeId → List String → Nat → Except String String) (src : NodeId)
    (hfg : FinalGood G src) (s : ExecState) (hinv : ExecInv G strat src s)
    (i : Nat) (u : NodeId) (hget : s.tasks.get? i = some (u, 3))
    (deg2 : List (NodeId × Int)) (ci2 : List (NodeId × List String))
    (tk2 : List (NodeId × Nat))
    (hfold : (G.succList u).foldl (processSucc (runStrat strat G u))
      (s.inDeg, s.childInputs, s.tasks) = (deg2, ci2, tk2)) :
    ExecInv G strat src { s with
      tasks := tk2.set i (u, 4)
      inDeg := deg2
      childInputs := ci2
      activeTasks := s.activeTasks - 1 } := by
  have hsnd : (G.succList u).Nodup := succList_nodup G hfg.hkeys u
  obtain ⟨hdeg2, hci2, htk2⟩ := processSucc_fold (runStrat strat G u) (G.succList u)
    hsnd s.inDeg s.childInputs s.tasks
  rw [hfold] at hdeg2 hci2 htk2
  dsimp only at hdeg2 hci2 htk2
  have hlt : i < s.tasks.length := (List.get?_eq_some.mp hget).1
  have hu3 : (u, 3) ∈ s.tasks := List.get?_mem hget
  have hun : u ∈ G.nodes := hinv.tsub _ hu3
  have hnotu4 : (u, 4) ∉ s.tasks := by
    intro h
    have h2 := pair_unique_of_nodup s.tasks hinv.tnodup u 4 3 h hu3
    omega
  have htasks2 : tk2.set i (u, 4)
      = s.tasks.set i (u, 4)
        ++ ((G.succList u).filter (fun v => decide (getA s.inDeg v 0 - 1 = 0))).map
            (fun v => (v, 0)) := by
    rw [htk2, List.set_append, if_pos hlt]
  have hkeys2 : (tk2.set i (u, 4)).map Prod.fst
      = s.tasks.map Prod.fst
        ++ (G.succList u).filter (fun v => decide (getA s.inDeg v 0 - 1 = 0)) := by
    rw [htasks2, List.map_append, map_fst_set s.tasks i u 3 4 hget, List.map_map]
    congr 1
    have h1 : (Prod.fst ∘ fun v : NodeId => (v, (0 : Nat))) = id := by
      funext x
      rfl
    rw [h1, List.map_id]
  have hspawn_mem : ∀ v,
      (v ∈ (G.succList u).filter (fun v => decide (getA s.inDeg v 0 - 1 = 0)) ↔
        (v ∈ G.succList u ∧ getA s.inDeg v 0 = 1)) := by
    intro v
    rw [List.mem_filter, decide_eq_true_eq]
    constructor
    · rintro ⟨h1, h2⟩
      exact ⟨h1, by omega⟩
    · rintro ⟨h1, h2⟩
      exact ⟨h1, by omega⟩
  have hmapmem : ∀ (p : NodeId) (c : Nat),
      ((p, c) ∈ ((G.succList u).filter
          (fun v => decide (getA s.inDeg v 0 - 1 = 0))).map (fun v => (v, 0)) ↔
        (p ∈ (G.succList u).filter (fun v => decide (getA s.inDeg v 0 - 1 = 0)) ∧ c = 0)) := by
    intro p c
    rw [List.mem_map]
    constructor
    · rintro ⟨v, hv, heq⟩
      rcases Prod.mk.injEq .. ▸ heq with ⟨h1, h2⟩
      subst h1
      exact ⟨hv, h2.symm⟩
    · rintro ⟨hp, rfl⟩
      exact ⟨p, hp, rfl⟩
  have hmem2 : ∀ (p : NodeId) (c : Nat), ((p, c) ∈ tk2.set i (u, 4) ↔
      (((p ≠ u ∧ (p, c) ∈ s.tasks) ∨ (p = u ∧ c = 4)) ∨
        (p ∈ (G.succList u).filter (fun v => decide (getA s.inDeg v 0 - 1 = 0)) ∧ c = 0))) := by
    intro p c
    rw [htasks2, List.mem_append, mem_set_upd s.tasks i u 3 4 hget hinv.tnodup p c, hmapmem p c]
  have hp4 : ∀ p, ((p, 4) ∈ tk2.set i (u, 4)) ↔ ((p, 4) ∈ s.tasks ∨ p = u) := by
    intro p
    rw [hmem2 p 4]
    constructor
    · rintro ((⟨_, h⟩ | ⟨h, _⟩) | ⟨_, h0⟩)
      · exact Or.inl h
      · exact Or.inr h
      · exact absurd h0 (by omega)
    · rintro (h | rfl)
      · have hpu : p ≠ u := by
          intro h0
          subst h0
          exact hnotu4 h
        exact Or.inl (Or.inl ⟨hpu, h⟩)
      · exact Or.inl (Or.inr ⟨rfl, rfl⟩)
  have hpos : ∀ v, G.adj u v → 1 ≤ getA s.inDeg v 0 := by
    intro v hadj
    have hv : v ∈ G.nodes := (hfg.hWF u v hadj).2
    rw [hinv.degval v hv]
    have h1 : ((G.predList v).filter (fun p => decide ((p, 4) ∈ s.tasks))).length
        < (G.predList v).length := by
      rw [List.length_filter_lt_length_iff_exists]
      exact ⟨u, (DiGraph.mem_predList_iff G u v).mpr hadj, by simpa using hnotu4⟩
    have h2 := length_predList_eq_inDegB G v
    omega
  have hiffuv : ∀ v, ((u ∈ G.predList v) ↔ (v ∈ G.succList u)) := by
    intro v
    rw [DiGraph.mem_predList_iff, DiGraph.mem_succList_iff]
  have hge3 : ∀ v, (∃ k, (v, k) ∈ tk2.set i (u, 4) ∧ 3 ≤ k) ↔
      (∃ k, (v, k) ∈ s.tasks ∧ 3 ≤ k) := by
    intro v
    constructor
    · rintro ⟨k, hk, h3⟩
      rcases (hmem2 v k).mp hk with (⟨_, h⟩ | ⟨rfl, rfl⟩) | ⟨_, rfl⟩
      · exact ⟨k, h, h3⟩
      · exact ⟨3, hu3, le_refl 3⟩
      · exact absurd h3 (by omega)
    · rintro ⟨k, hk, h3⟩
      by_cases hv : v = u
      · subst hv
        exact ⟨4, (hmem2 v 4).mpr (Or.inl (Or.inr ⟨rfl, rfl⟩)), by omega⟩
      · exact ⟨k, (hmem2 v k).mpr (Or.inl (Or.inl ⟨hv, hk⟩)), h3⟩
  refine ⟨?_, ?_, ?_, ?_, ?_, ?_, ?_, ?_, ?_, ?_, ?_, ?_⟩
  · show ((tk2.set i (u, 4)).map Prod.fst).Nodup
    rw [hkeys2, List.nodup_append]
    refine ⟨hinv.tnodup, hsnd.filter _, ?_⟩
    intro a ha ha2
    rcases (hspawn_mem a).mp ha2 with ⟨hsucc, h1⟩
    have hadj := (DiGraph.mem_succList_iff G u a).mp hsucc
    rcases (hinv.spawned a).mp ha with rfl | ⟨_, _, h0⟩
    · have hdeg0 : G.inDegB a = 0 := (hfg.huniq a hfg.hsrc).mpr rfl
      exact (DiGraph.inDegB_eq_zero_iff G a).mp hdeg0 u hadj
    · omega
  · rintro ⟨p, c⟩ hpr
    rcases (hmem2 p c).mp hpr with (⟨_, h⟩ | ⟨rfl, _⟩) | ⟨hp, _⟩
    · exact hinv.tsub _ h
    · exact hun
    · rcases (hspawn_mem p).mp hp with ⟨hsucc, _⟩
      exact (hfg.hWF u p ((DiGraph.mem_succList_iff G u p).mp hsucc)).2
  · rintro ⟨p, c⟩ hpr
    rcases (hmem2 p c).mp hpr with (⟨_, h⟩ | ⟨_, rfl⟩) | ⟨_, rfl⟩
    · exact hinv.phle _ h
    · exact le_refl 4
    · exact Nat.zero_le 4
  · intro v hv
    show getA deg2 v 0 = _
    rw [hdeg2 v, hinv.degval v hv]
    have hc : (G.predList v).filter (fun p => decide ((p, 4) ∈ tk2.set i (u, 4)))
        = (G.predList v).filter
            (fun p => decide ((p, 4) ∈ s.tasks) || decide (p = u)) := by
      apply List.filter_congr
      intro p _
      rw [← decide_or_eq]
      exact decide_eq_decide.mpr (hp4 p)
    rw [hc, length_filter_pred_or u _ (G.predList v) (predList_nodup G hfg.hkeys v)
      (by simpa using hnotu4)]
    by_cases hcase : v ∈ G.succList u
    · rw [if_pos hcase, if_pos ((hiffuv v).mpr hcase)]
      push_cast
      omega
    · rw [if_neg hcase, if_neg (fun h => hcase ((hiffuv v).mp h))]
      push_cast
      omega
  · intro v
    show v ∈ (tk2.set i (u, 4)).map Prod.fst ↔ _
    rw [hkeys2, List.mem_append]
    constructor
    · rintro (hv | hv)
      · rcases (hinv.spawned v).mp hv with rfl | ⟨hn, hd, h0⟩
        · exact Or.inl rfl
        · right
          refine ⟨hn, hd, ?_⟩
          show getA deg2 v 0 = 0
          rw [hdeg2 v]
          have hnsucc : v ∉ G.succList u := by
            intro hsucc
            have := hpos v ((DiGraph.mem_succList_iff G u v).mp hsucc)
            omega
          rw [if_neg hnsucc]
          omega
      · rcases (hspawn_mem v).mp hv with ⟨hsucc, h1⟩
        have hadj := (DiGraph.mem_succList_iff G u v).mp hsucc
        right
        refine ⟨(hfg.hWF u v hadj).2, ?_, ?_⟩
        · intro h0
          exact (DiGraph.inDegB_eq_zero_iff G v).mp h0 u hadj
        · show getA deg2 v 0 = 0
          rw [hdeg2 v, if_pos hsucc]
          omega
    · rintro (rfl | ⟨hn, hd, h0⟩)
      · exact Or.inl ((hinv.spawned v).mpr (Or.inl rfl))
      · rw [show getA deg2 v 0 = getA s.inDeg v 0 - (if v ∈ G.succList u then 1 else 0)
            from hdeg2 v] at h0
        by_cases hsucc : v ∈ G.succList u
        · right
          rw [hspawn_mem]
          rw [if_pos hsucc] at h0
          exact ⟨hsucc, by omega⟩
        · left
          apply (hinv.spawned v).mpr
          rw [if_neg hsucc] at h0
          exact Or.inr ⟨hn, hd, by omega⟩
  · exact hinv.rnodup
  · intro v
    show v ∈ s.results.map Prod.fst ↔ _
    rw [hinv.rmem v]
    exact (hge3 v).symm
  · exact hinv.rval
  · exact hinv.tmem
  · exact hinv.timnodup
  · intro v p hadj hmem
    show runStrat strat G p ∈ getA ci2 v []
    rw [hci2 v]
    rcases (hp4 p).mp hmem with h | hpu
    · exact List.mem_append.mpr (Or.inl (hinv.cival v p hadj h))
    · have hsucc : v ∈ G.succList u := (DiGraph.mem_succList_iff G u v).mpr (hpu ▸ hadj)
      rw [if_pos hsucc, hpu]
      exact List.mem_append.mpr (Or.inr (by simp))
  · exact hinv.callsinv

theorem execInv_step (G : DiGraph NodeId)
    (strat : NodeId → List String → Nat → Except String String) (src : NodeId)
    (hfg : FinalGood G src) (s : ExecState) (hinv : ExecInv G strat src s)
    (i : Nat) (t : ℚ) (s2 : ExecState)
    (hadv : advance G strat s i t = some s2) : ExecInv G strat src s2 := by
  unfold advance at hadv
  rcases hget : s.tasks.get? i with _ | ⟨u, ph⟩
  · rw [hget] at hadv
    exact Option.noConfusion hadv
  · rw [hget] at hadv
    dsimp only at hadv
    by_cases h0 : ph = 0
    · rw [if_pos h0] at hadv
      rw [Option.some.injEq] at hadv
      subst hadv
      subst h0
      have h := execInv_taskbump G strat src s hinv i u 0 1 hget (by omega)
        (by omega) (by omega) (by omega) (s.activeTasks + 1)
        (max s.maxParallelism (s.activeTasks + 1)) [] (by intro c hc; simp at hc)
      rw [List.append_nil] at h
      exact h
    · rw [if_neg h0] at hadv
      by_cases h1 : ph = 1
      · rw [if_pos h1] at hadv
        rw [Option.some.injEq] at hadv
        subst hadv
        subst h1
        exact execInv_taskbump G strat src s hinv i u 1 2 hget (by omega)
          (by omega) (by omega) (by omega) s.activeTasks s.maxParallelism
          [(u, ([] : List String), budget G u)]
          (by
            intro c hc
            rcases List.mem_singleton.mp hc with rfl
            exact ⟨rfl, rfl⟩)
      · rw [if_neg h1] at hadv
        by_cases h2 : ph = 2
        · rw [if_pos h2] at hadv
          rw [Option.some.injEq] at hadv
          subst hadv
          subst h2
          exact execInv_record G strat src s hinv i u hget t
        · rw [if_neg h2] at hadv
          by_cases h3 : ph = 3
          · rw [if_pos h3] at hadv
            subst h3
            rcases hfold : (G.succList u).foldl (processSucc (runStrat strat G u))
                (s.inDeg, s.childInputs, s.tasks) with ⟨deg2, ci2, tk2⟩
            rw [hfold] at hadv
            rw [Option.some.injEq] at hadv
            subst hadv
            exact execInv_finish G strat src hfg s hinv i u hget deg2 ci2 tk2 hfold
          · rw [if_neg h3] at hadv
            exact Option.noConfusion hadv

theorem execInv_reach (G : DiGraph NodeId)
    (strat : NodeId → List String → Nat → Except String String) (src : NodeId)
    (hfg : FinalGood G src) (s : ExecState)
    (hre : ReachState G strat src s) : ExecInv G strat src s := by
  induction hre with
  | refl => exact execInv_init G strat src hfg
  | tail h1 h2 ih =>
    rcases h2 with ⟨i, t, hadv⟩
    exact execInv_step G strat src hfg _ ih i t _ hadv

/-- Termination measure: remaining phases over live tasks plus full
budget for nodes not yet started. -/
def measureE (G : DiGraph NodeId) (s : ExecState) : Nat :=
  (s.tasks.map (fun pr => 4 - pr.2)).sum + 4 * (G.nodes.length - s.tasks.length)

theorem sum_map_set {γ : Type} (f : γ → Nat) :
    ∀ (l : List γ) (i : Nat) (x y : γ), l.get? i = some x →
      ((l.set i y).map f).sum + f x = (l.map f).sum + f y := by
  intro l
  induction l with
  | nil => intro i x y h; simp at h
  | cons hd t ih =>
    intro i x y h
    cases i with
    | zero =>
      rw [List.get?_cons_zero, Option.some.injEq] at h
      subst h
      rw [List.set_cons_zero, List.map_cons, List.map_cons, List.sum_cons, List.sum_cons]
      omega
    | succ j =>
      rw [List.get?_cons_succ] at h
      rw [List.set_cons_succ, List.map_cons, List.map_cons, List.sum_cons, List.sum_cons]
      have h2 := ih j x y h
      omega

theorem tasks_le_nodes (G : DiGraph NodeId)
    (strat : NodeId → List String → Nat → Except String String) (src : NodeId)
    (s : ExecState) (hinv : ExecInv G strat src s) (hnodesnd : G.nodes.Nodup) :
    s.tasks.length ≤ G.nodes.length := by
  have h1 : (s.tasks.map Prod.fst).toFinset.card = s.tasks.length := by
    rw [List.toFinset_card_of_nodup hinv.tnodup, List.length_map]
  have h2 : (s.tasks.map Prod.fst).toFinset ⊆ G.nodes.toFinset := by
    intro x hx
    rw [List.mem_toFinset] at hx
    rw [List.mem_toFinset]
    rcases List.mem_map.mp hx with ⟨pr, hpr, rfl⟩
    exact hinv.tsub pr hpr
  have h3 := Finset.card_le_card h2
  rw [List.toFinset_card_of_nodup hnodesnd] at h3
  omega

theorem sum_spawn_map (l : List NodeId) :
    ((l.map (fun v => (v, 0))).map (fun pr : NodeId × Nat => 4 - pr.2)).sum
      = 4 * l.length := by
  induction l with
  | nil => rfl
  | cons x t ih =>
    rw [List.map_cons, List.map_cons, List.sum_cons, ih, List.length_cons]
    omega

theorem measure_dec (G : DiGraph NodeId)
    (strat : NodeId → List String → Nat → Except String String) (src : NodeId)
    (hfg : FinalGood G src) (s : ExecState) (hinv : ExecInv G strat src s)
    (i : Nat) (t : ℚ) (s2 : ExecState)
    (hadv : advance G strat s i t = some s2) : measureE G s2 < measureE G s := by
  have hlen_le := tasks_le_nodes G strat src s hinv hfg.hnodesnd
  have hinv2 := execInv_step G strat src hfg s hinv i t s2 hadv
  have hlen_le2 := tasks_le_nodes G strat src s2 hinv2 hfg.hnodesnd
  unfold advance at hadv
  rcases hget : s.tasks.get? i with _ | ⟨u, ph⟩
  · rw [hget] at hadv
    exact Option.noConfusion hadv
  · rw [hget] at hadv
    dsimp only at hadv
    have hbump : ∀ ph2, s2.tasks = s.tasks.set i (u, ph2) → ph < ph2 → ph2 ≤ 4 →
        measureE G s2 < measureE G s := by
      intro ph2 htasks hlt hle
      have hsum := sum_map_set (fun pr : NodeId × Nat => 4 - pr.2) s.tasks i (u, ph)
        (u, ph2) hget
      unfold measureE
      rw [htasks, List.length_set]
      have hlt2 : i < s.tasks.length := (List.get?_eq_some.mp hget).1
      have hphle : ph ≤ 4 := hinv.phle (u, ph) (List.get?_mem hget)
      dsimp only at hsum
      omega
    by_cases h0 : ph = 0
    · rw [if_pos h0] at hadv
      rw [Option.some.injEq] at hadv
      subst hadv
      exact hbump 1 rfl (by omega) (by omega)
    · rw [if_neg h0] at hadv
      by_cases h1 : ph = 1
      · rw [if_pos h1] at hadv
        rw [Option.some.injEq] at hadv
        subst hadv
        exact hbump 2 rfl (by omega) (by omega)
      · rw [if_neg h1] at hadv
        by_cases h2 : ph = 2
        · rw [if_pos h2] at hadv
          rw [Option.some.injEq] at hadv
          subst hadv
          exact hbump 3 rfl (by omega) (by omega)
        · rw [if_neg h2] at hadv
          by_cases h3 : ph = 3
          · rw [if_pos h3] at hadv
            subst h3
            rcases hfold : (G.succList u).foldl (processSucc (runStrat strat G u))
                (s.inDeg, s.childInputs, s.tasks) with ⟨deg2, ci2, tk2⟩
            rw [hfold] at hadv
            rw [Option.some.injEq] at hadv
            obtain ⟨_, _, htk2⟩ := processSucc_fold (runStrat strat G u) (G.succList u)
              (succList_nodup G hfg.hkeys u) s.inDeg s.childInputs s.tasks
            rw [hfold] at htk2
            dsimp only at htk2
            have htasks2 : s2.tasks = s.tasks.set i (u, 4)
                ++ ((G.succList u).filter (fun v => decide (getA s.inDeg v 0 - 1 = 0))).map
                    (fun v => (v, 0)) := by
              rw [← hadv]
              show tk2.set i (u, 4) = _
              rw [htk2, List.set_append, if_pos (List.get?_eq_some.mp hget).1]
            have hsum := sum_map_set (fun pr : NodeId × Nat => 4 - pr.2) s.tasks i (u, 3)
              (u, 4) hget
            have hspawn := sum_spawn_map
              ((G.succList u).filter (fun v => decide (getA s.inDeg v 0 - 1 = 0)))
            unfold measureE
            rw [htasks2, List.map_append, List.sum_append, List.length_append,
              List.length_set, List.length_map, hspawn]
            rw [htasks2, List.length_append, List.length_set, List.length_map] at hlen_le2
            have hlt2 : i < s.tasks.length := (List.get?_eq_some.mp hget).1
            dsimp only at hsum
            omega
          · rw [if_neg h3] at hadv
            exact Option.noConfusion hadv

theorem execTrace_bound (G : DiGraph NodeId)
    (strat : NodeId → List String → Nat → Except String String) (src : NodeId)
    (hfg : FinalGood G src) :
    ∀ (tr : List (Nat × ℚ)) (s s2 : ExecState), ExecInv G strat src s →
      execTrace G strat s tr = some s2 → tr.length ≤ measureE G s := by
  intro tr
  induction tr with
  | nil =>
    intro s s2 _ _
    exact Nat.zero_le _
  | cons a rest ih =>
    intro s s2 hinv hex
    rw [execTrace] at hex
    rcases hadv : advance G strat s a.1 a.2 with _ | s1
    · rw [hadv] at hex
      exact Option.noConfusion hex
    · rw [hadv] at hex
      dsimp only at hex
      have hinv1 := execInv_step G strat src hfg s hinv a.1 a.2 s1 hadv
      have hdec := measure_dec G strat src hfg s hinv a.1 a.2 s1 hadv
      have hrest := ih s1 s2 hinv1 hex
      rw [List.length_cons]
      omega

theorem measureE_init (G : DiGraph NodeId) (src : NodeId) (hne : G.nodes ≠ []) :
    measureE G (initState G src) = 4 * G.nodes.length := by
  have hpos : 1 ≤ G.nodes.length := List.length_pos.mpr hne
  unfold measureE initState
  dsimp only
  rw [List.map_singleton, List.sum_cons, List.sum_nil, List.length_singleton]
  omega

theorem progress_of_not_terminal (G : DiGraph NodeId)
    (strat : NodeId → List String → Nat → Except String String) (src : NodeId)
    (s : ExecState) (hinv : ExecInv G strat src s) (h : isTerminal s = false) :
    ∃ i t s2, advance G strat s i t = some s2 := by
  unfold isTerminal at h
  rw [List.all_eq_false] at h
  rcases h with ⟨⟨u, ph⟩, hpr, hph⟩
  rcases List.get?_of_mem hpr with ⟨i, hget⟩
  have hle : ph ≤ 4 := hinv.phle (u, ph) hpr
  have hne : ph ≠ 4 := by simpa using hph
  refine ⟨i, 0, ?_⟩
  show ∃ s2, advance G strat s i 0 = some s2
  unfold advance
  rw [hget]
  dsimp only
  by_cases h0 : ph = 0
  · rw [if_pos h0]
    exact ⟨_, rfl⟩
  · rw [if_neg h0]
    by_cases h1 : ph = 1
    · rw [if_pos h1]
      exact ⟨_, rfl⟩
    · rw [if_neg h1]
      by_cases h2 : ph = 2
      · rw [if_pos h2]
        exact ⟨_, rfl⟩
      · rw [if_neg h2]
        have h3 : ph = 3 := by omega
        rw [if_pos h3]
        rcases hfold : (G.succList u).foldl (processSucc (runStrat strat G u))
            (s.inDeg, s.childInputs, s.tasks) with ⟨deg2, ci2, tk2⟩
        exact ⟨_, rfl⟩

theorem terminal_results (G : DiGraph NodeId)
    (strat : NodeId → List String → Nat → Except String String) (src : NodeId)
    (hfg : FinalGood G src) (s : ExecState) (hinv : ExecInv G strat src s)
    (hterm : isTerminal s = true) :
    (s.results.map Prod.fst).Perm G.nodes ∧ (s.timings.map Prod.fst).Perm G.nodes ∧
    (∀ v ∈ G.nodes, (v, 4) ∈ s.tasks) := by
  have hall : ∀ pr ∈ s.tasks, pr.2 = 4 := by
    unfold isTerminal at hterm
    rw [List.all_eq_true] at hterm
    intro pr hpr
    simpa using hterm pr hpr
  have hA : ∀ v ∈ G.nodes, (v, 4) ∈ s.tasks := by
    refine DiGraph.dag_induction G hfg.hacyc hfg.hWF.srcClosed (fun v => (v, 4) ∈ s.tasks) ?_
    intro v hv hp
    have hfil : (G.predList v).filter (fun p => decide ((p, 4) ∈ s.tasks)) = G.predList v := by
      apply List.filter_eq_self.mpr
      intro p hpmem
      rw [decide_eq_true_eq]
      exact hp p ((DiGraph.mem_predList_iff G p v).mp hpmem)
    have hdeg : getA s.inDeg v 0 = 0 := by
      rw [hinv.degval v hv, hfil, length_predList_eq_inDegB]
      omega
    have hkey : v ∈ s.tasks.map Prod.fst := by
      apply (hinv.spawned v).mpr
      by_cases hdeg0 : G.inDegB v = 0
      · exact Or.inl ((hfg.huniq v hv).mp hdeg0)
      · exact Or.inr ⟨hv, hdeg0, hdeg⟩
    rcases List.mem_map.mp hkey with ⟨⟨v2, ph⟩, hmem, heq⟩
    have hph := hall _ hmem
    dsimp only at hph heq
    subst hph
    subst heq
    exact hmem
  have hrmem2 : ∀ v, v ∈ s.results.map Prod.fst ↔ v ∈ G.nodes := by
    intro v
    rw [hinv.rmem v]
    constructor
    · rintro ⟨k, hk, _⟩
      exact hinv.tsub _ hk
    · intro hv
      exact ⟨4, hA v hv, by omega⟩
  exact ⟨(List.perm_ext_iff_of_nodup hinv.rnodup hfg.hnodesnd).mpr hrmem2,
    (List.perm_ext_iff_of_nodup hinv.timnodup hfg.hnodesnd).mpr
      (fun v => (hinv.tmem v).trans (hrmem2 v)), hA⟩

theorem predList_eq_filter_map (G : DiGraph NodeId) (v : NodeId) :
    G.predList v = (G.edges.filter (fun e => decide (e.2.1 = v))).map Prod.fst := by
  unfold DiGraph.predList
  induction G.edges with
  | nil => rfl
  | cons e t ih =>
    rw [List.filterMap_cons, List.filter_cons]
    by_cases he : e.2.1 = v
    · rw [if_pos he, if_pos (by simpa using he), List.map_cons, ih]
    · rw [if_neg he, if_neg (by simpa using he), ih]

/-- The `total_duration` passed to the strategy equals the sum of the
static durations of all edges entering the node. -/
theorem budget_eq_sum_inEdges (G : DiGraph NodeId) (hkeys : G.keys.Nodup)
    (u : NodeId) :
    budget G u
      = ((G.edges.filter (fun pr => decide (pr.2.1 = u))).map (fun pr => pr.2.2)).sum := by
  unfold budget
  rw [predList_eq_filter_map, List.map_map]
  congr 1
  apply List.map_congr_left
  intro pr hpr
  rw [List.mem_filter, decide_eq_true_eq] at hpr
  show edgeDuration G pr.1 u = pr.2.2
  unfold edgeDuration
  rcases hfind : G.edges.find? (fun e => decide (e.1 = pr.1 ∧ e.2.1 = u)) with _ | e
  · exfalso
    have hnone := List.find?_eq_none.mp hfind pr hpr.1
    rw [decide_eq_true_eq] at hnone
    exact hnone ⟨rfl, hpr.2⟩
  · have hmem := List.mem_of_find?_eq_some hfind
    have hpe := List.find?_some hfind
    rw [decide_eq_true_eq] at hpe
    have heq : e = pr := by
      apply List.inj_on_of_nodup_map hkeys hmem hpr.1
      show (e.1, e.2.1) = (pr.1, pr.2.1)
      rw [hpe.1, hpe.2, hpr.2]
    rw [hfind]
    show e.2.2 = pr.2.2
    rw [heq]

theorem reach_of_execTrace (G : DiGraph NodeId)
    (strat : NodeId → List String → Nat → Except String String) (src : NodeId) :
    ∀ (tr : List (Nat × ℚ)) (s s2 : ExecState), ReachState G strat src s →
      execTrace G strat s tr = some s2 → ReachState G strat src s2 := by
  intro tr
  induction tr with
  | nil =>
    intro s s2 h hex
    rw [execTrace, Option.some.injEq] at hex
    rw [← hex]
    exact h
  | cons a rest ih =>
    intro s s2 h hex
    rw [execTrace] at hex
    rcases hadv : advance G strat s a.1 a.2 with _ | s1
    · rw [hadv] at hex
      exact Option.noConfusion hex
    · rw [hadv] at hex
      dsimp only at hex
      exact ih s1 s2 (Relation.ReflTransGen.tail h ⟨a.1, a.2, hadv⟩) hex

/-- C2: on every generated graph, `run()` with a strategy that returns or
raises on every call terminates — every schedule is bounded by `4·n` steps
and every non-terminal reachable state can take a step — and in any
terminal reachable state `results` and `timings` hold exactly `n` entries,
one per node of the graph, each written exactly once. -/
theorem executor_run_produces_n_results (pp : GenParams) (hwf : GenWF pp)
    (hn : 1 ≤ pp.n)
    (strat : NodeId → List String → Nat → Except String String)
    (s : ExecState)
    (hreach : ReachState (generateDAG pp).1 strat (generateDAG pp).2 s) :
    (∀ (tr : List (Nat × ℚ)) (s2 : ExecState),
        execTrace (generateDAG pp).1 strat
          (initState (generateDAG pp).1 (generateDAG pp).2) tr = some s2 →
        tr.length ≤ 4 * (generateDAG pp).1.nodes.length) ∧
    (isTerminal s = false →
        ∃ i t s2, advance (generateDAG pp).1 strat s i t = some s2) ∧
    (isTerminal s = true →
        s.results.length = (generateDAG pp).1.nodes.length ∧
        s.timings.length = (generateDAG pp).1.nodes.length ∧
        (s.results.map Prod.fst).Perm (generateDAG pp).1.nodes ∧
        (s.timings.map Prod.fst).Perm (generateDAG pp).1.nodes) := by
  have hfg := generateDAG_final pp hwf hn
  have hinv := execInv_reach _ strat _ hfg s hreach
  refine ⟨?_, ?_, ?_⟩
  · intro tr s2 htr
    have hb := execTrace_bound _ strat _ hfg tr _ s2
      (execInv_init _ strat _ hfg) htr
    rw [measureE_init _ _ hfg.hne] at hb
    exact hb
  · exact progress_of_not_terminal _ strat _ s hinv
  · intro hterm
    obtain ⟨hr, ht, _⟩ := terminal_results _ strat _ hfg s hinv hterm
    have h1 : s.results.length = (generateDAG pp).1.nodes.length := by
      have h2 := hr.length_eq
      rw [List.length_map] at h2
      exact h2
    have h3 : s.timings.length = (generateDAG pp).1.nodes.length := by
      have h4 := ht.length_eq
      rw [List.length_map] at h4
      exact h4
    exact ⟨h1, h3, hr, ht⟩

/-- A strategy that raises for `node_2` and returns for every other
node (a `DurationSleepStrategy`-shaped stub for concrete runs). -/
def stratC3 : NodeId → List String → Nat → Except String String :=
  fun u _ _ => if u = NodeId.node 2 then Except.error "boom" else Except.ok "fine"

/-- A strategy that raises for `node_1` (the source of the `ppC3` graph). -/
def stratErrC3 : NodeId → List String → Nat → Except String String :=
  fun u _ _ => if u = NodeId.node 1 then Except.error "boom" else Except.ok "fine"

/-- A complete schedule of the `ppC3` graph: the source task runs its four
blocks, then each spawned task runs its four blocks. -/
def trC3 : List (Nat × ℚ) :=
  [(0, 0), (0, 0), (0, 0), (0, 0),
   (1, 0), (1, 0), (1, 0), (1, 0),
   (2, 0), (2, 0), (2, 0), (2, 0)]

/-- The final state of the `ppC3` run under `stratC3`. -/
def sC3 : ExecState :=
  (execTrace (generateDAG ppC3).1 stratC3
    (initState (generateDAG ppC3).1 (generateDAG ppC3).2) trC3).getD
    (initState (generateDAG ppC3).1 (generateDAG ppC3).2)

/-- The final state of the `ppC3` run under `stratErrC3`. -/
def sErrC3 : ExecState :=
  (execTrace (generateDAG ppC3).1 stratErrC3
    (initState (generateDAG ppC3).1 (generateDAG ppC3).2) trC3).getD
    (initState (generateDAG ppC3).1 (generateDAG ppC3).2)

theorem reachC3 : ReachState (generateDAG ppC3).1 stratC3 (generateDAG ppC3).2 sC3 := by
  apply reach_of_execTrace (generateDAG ppC3).1 stratC3 (generateDAG ppC3).2 trC3 _ sC3
    Relation.ReflTransGen.refl
  rfl

theorem reachErrC3 :
    ReachState (generateDAG ppC3).1 stratErrC3 (generateDAG ppC3).2 sErrC3 := by
  apply reach_of_execTrace (generateDAG ppC3).1 stratErrC3 (generateDAG ppC3).2 trC3 _ sErrC3
    Relation.ReflTransGen.refl
  rfl

/-- C2 witness: at the 3-node `ppC3` graph, the complete schedule `trC3`
reaches a terminal state with one result and one timing per node. -/
theorem executor_run_produces_n_results_witness :
    GenWF ppC3 ∧ 1 ≤ ppC3.n ∧ isTerminal sC3 = true ∧
    (sC3.results.length = (generateDAG ppC3).1.nodes.length ∧
     sC3.timings.length = (generateDAG ppC3).1.nodes.length ∧
     (sC3.results.map Prod.fst).Perm (generateDAG ppC3).1.nodes ∧
     (sC3.timings.map Prod.fst).Perm (generateDAG ppC3).1.nodes) :=
  ⟨ppC3_wf, by decide, by decide,
   (executor_run_produces_n_results ppC3 ppC3_wf (by decide) stratC3 sC3
     reachC3).2.2 (by decide)⟩

/-- C5: in every reachable state of the scheduler the live tasks hold at
most one task per node, a node has a task precisely when it is the source
or its in-degree counter has been driven to 0, and in a terminal state
every node of the graph has been started exactly once. -/
theorem each_node_started_exactly_once (pp : GenParams) (hwf : GenWF pp)
    (hn : 1 ≤ pp.n)
    (strat : NodeId → List String → Nat → Except String String)
    (s : ExecState)
    (hreach : ReachState (generateDAG pp).1 strat (generateDAG pp).2 s) :
    (s.tasks.map Prod.fst).Nodup ∧
    (∀ v, v ∈ s.tasks.map Prod.fst ↔
        (v = (generateDAG pp).2 ∨
         (v ∈ (generateDAG pp).1.nodes ∧ (generateDAG pp).1.inDegB v ≠ 0 ∧
          getA s.inDeg v 0 = 0))) ∧
    (isTerminal s = true →
        ∀ v ∈ (generateDAG pp).1.nodes, (s.tasks.map Prod.fst).count v = 1) := by
  have hfg := generateDAG_final pp hwf hn
  have hinv := execInv_reach _ strat _ hfg s hreach
  refine ⟨hinv.tnodup, hinv.spawned, ?_⟩
  intro hterm v hv
  obtain ⟨_, _, hA⟩ := terminal_results _ strat _ hfg s hinv hterm
  exact List.count_eq_one_of_mem hinv.tnodup
    (List.mem_map.mpr ⟨(v, 4), hA v hv, rfl⟩)

/-- C5 witness: in the terminal state of the `ppC3` run, `node_2` was
started exactly once. -/
theorem each_node_started_exactly_once_witness :
    isTerminal sC3 = true ∧ NodeId.node 2 ∈ (generateDAG ppC3).1.nodes ∧
    (sC3.tasks.map Prod.fst).count (NodeId.node 2) = 1 :=
  ⟨by decide, by decide,
   (each_node_started_exactly_once ppC3 ppC3_wf (by decide) stratC3 sC3
     reachC3).2.2 (by decide) (NodeId.node 2) (by decide)⟩

/-- C4: if the strategy raises for node `k`, then in every terminal
reachable state `k` is recorded in `results` with the error-marker string
and in `timings`, every successor of `k` has received the error marker as
an appended input, has had its in-degree driven to 0, and has completed,
and every node for which the strategy returns normally is recorded with
its normal result — the error never escapes `k`'s unit of work. -/
theorem strategy_error_recovered_locally (pp : GenParams) (hwf : GenWF pp)
    (hn : 1 ≤ pp.n)
    (strat : NodeId → List String → Nat → Except String String)
    (k : NodeId) (e : String)
    (herr : strat k [] (budget (generateDAG pp).1 k) = Except.error e)
    (s : ExecState)
    (hreach : ReachState (generateDAG pp).1 strat (generateDAG pp).2 s)
    (hterm : isTerminal s = true) (hk : k ∈ (generateDAG pp).1.nodes) :
    (k, "ERROR: " ++ e) ∈ s.results ∧
    k ∈ s.timings.map Prod.fst ∧
    (∀ v, (generateDAG pp).1.adj k v →
        ("ERROR: " ++ e) ∈ getA s.childInputs v [] ∧
        (v, 4) ∈ s.tasks ∧ getA s.inDeg v 0 = 0) ∧
    (∀ v r, v ∈ (generateDAG pp).1.nodes →
        strat v [] (budget (generateDAG pp).1 v) = Except.ok r →
        (v, r) ∈ s.results) := by
  have hfg := generateDAG_final pp hwf hn
  have hinv := execInv_reach _ strat _ hfg s hreach
  obtain ⟨hrperm, htperm, hA⟩ := terminal_results _ strat _ hfg s hinv hterm
  have hrs : runStrat strat (generateDAG pp).1 k = "ERROR: " ++ e := by
    unfold runStrat
    rw [herr]
  have hres : ∀ v ∈ (generateDAG pp).1.nodes,
      (v, runStrat strat (generateDAG pp).1 v) ∈ s.results := by
    intro v hv
    have hkey : v ∈ s.results.map Prod.fst :=
      (hinv.rmem v).mpr ⟨4, hA v hv, by omega⟩
    rcases List.mem_map.mp hkey with ⟨pr, hmem, heq⟩
    have hval := hinv.rval pr hmem
    have hpr2 : pr = (v, runStrat strat (generateDAG pp).1 v) := by
      rcases pr with ⟨a, b⟩
      dsimp only at heq hval
      rw [heq] at hval
      rw [heq, hval]
    rw [hpr2] at hmem
    exact hmem
  refine ⟨?_, ?_, ?_, ?_⟩
  · rw [← hrs]
    exact hres k hk
  · rw [hinv.tmem]
    exact (hinv.rmem k).mpr ⟨4, hA k hk, by omega⟩
  · intro v hadj
    have hv : v ∈ (generateDAG pp).1.nodes := (hfg.hWF k v hadj).2
    refine ⟨?_, hA v hv, ?_⟩
    · have hci := hinv.cival v k hadj (hA k hk)
      rw [hrs] at hci
      exact hci
    · have hfil : ((generateDAG pp).1.predList v).filter
          (fun p => decide ((p, 4) ∈ s.tasks)) = (generateDAG pp).1.predList v := by
        apply List.filter_eq_self.mpr
        intro p hp
        rw [decide_eq_true_eq]
        have hadj2 := (DiGraph.mem_predList_iff _ p v).mp hp
        exact hA p (hfg.hWF p v hadj2).1
      rw [hinv.degval v hv, hfil, length_predList_eq_inDegB]
      omega
  · intro v r hv hok
    have h2 := hres v hv
    have h3 : runStrat strat (generateDAG pp).1 v = r := by
      unfold runStrat
      rw [hok]
    rw [h3] at h2
    exact h2

/-- C4 witness: with the strategy raising for the source `node_1` of the
`ppC3` graph, the terminal state records the error marker for `node_1`,
passes it to successor `node_0`, and `node_0` still completes normally. -/
theorem strategy_error_recovered_locally_witness :
    ((NodeId.node 1, "ERROR: " ++ "boom") ∈ sErrC3.results) ∧
    (("ERROR: " ++ "boom") ∈ getA sErrC3.childInputs (NodeId.node 0) [] ∧
     (NodeId.node 0, 4) ∈ sErrC3.tasks ∧ getA sErrC3.inDeg (NodeId.node 0) 0 = 0) ∧
    ((NodeId.node 0, "fine") ∈ sErrC3.results) :=
  ⟨(strategy_error_recovered_locally ppC3 ppC3_wf (by decide) stratErrC3
      (NodeId.node 1) "boom" (by rfl) sErrC3 reachErrC3 (by decide) (by decide)).1,
   (strategy_error_recovered_locally ppC3 ppC3_wf (by decide) stratErrC3
      (NodeId.node 1) "boom" (by rfl) sErrC3 reachErrC3 (by decide) (by decide)).2.2.1
     (NodeId.node 0) ⟨5, by decide⟩,
   (strategy_error_recovered_locally ppC3 ppC3_wf (by decide) stratErrC3
      (NodeId.node 1) "boom" (by rfl) sErrC3 reachErrC3 (by decide) (by decide)).2.2.2
     (NodeId.node 0) "fine" (by decide) (by rfl)⟩

/-- C6: in every reachable state, every strategy call so far was made
with an empty inputs list and a duration budget equal to the sum of the
static durations of the edges entering the called node; the accumulated
`child_inputs` are never what is passed. -/
theorem strategy_called_empty_inputs_static_budget (pp : GenParams)
    (hwf : GenWF pp) (hn : 1 ≤ pp.n)
    (strat : NodeId → List String → Nat → Except String String)
    (s : ExecState)
    (hreach : ReachState (generateDAG pp).1 strat (generateDAG pp).2 s) :
    ∀ c ∈ s.calls, c.2.1 = ([] : List String) ∧
      c.2.2 = (((generateDAG pp).1.edges.filter
          (fun pr => decide (pr.2.1 = c.1))).map (fun pr => pr.2.2)).sum := by
  have hfg := generateDAG_final pp hwf hn
  have hinv := execInv_reach _ strat _ hfg s hreach
  intro c hc
  obtain ⟨h1, h2⟩ := hinv.callsinv c hc
  refine ⟨h1, ?_⟩
  rw [h2, budget_eq_sum_inEdges _ hfg.hkeys]

/-- C6 witness: in the `ppC3` run, the recorded call for `node_2` used an
empty inputs list and the static budget 5 of its single in-edge. -/
theorem strategy_called_empty_inputs_static_budget_witness :
    ((NodeId.node 2, ([] : List String), (5 : Nat)) ∈ sC3.calls) ∧
    ((NodeId.node 2, ([] : List String), (5 : Nat)).2.1 = ([] : List String) ∧
     (NodeId.node 2, ([] : List String), (5 : Nat)).2.2 =
       (((generateDAG ppC3).1.edges.filter
           (fun pr => decide (pr.2.1 = (NodeId.node 2, ([] : List String), (5 : Nat)).1))).map
         (fun pr => pr.2.2)).sum) :=
  ⟨by decide,
   strategy_called_empty_inputs_static_budget ppC3 ppC3_wf (by decide) stratC3 sC3
     reachC3 (NodeId.node 2, ([] : List String), (5 : Nat)) (by decide)⟩

/-- `total_sequential_time = sum(self.timings.values())` (line 112). -/
def seqTime (s : ExecState) : ℚ :=
  (s.timings.map Prod.snd).sum

/-- The dictionary returned by `get_performance_metrics` (lines 119-128);
`speedup = none` encodes the Python value `float('inf')`. -/
structure PerfMetrics where
  wall_time : ℚ
  sequential_time : ℚ
  time_saved : ℚ
  speedup : Option ℚ
  alpha : ℚ
  critical_path : ℚ
  node_count : Nat
  max_parallelism : Int

/-- `get_performance_metrics` (lines 104-128), with `wall` standing for
`wall_end_time - wall_start_time`. -/
def getPerformanceMetrics (s : ExecState) (wall : ℚ) : PerfMetrics :=
  { wall_time := wall
    sequential_time := seqTime s
    time_saved := seqTime s - wall
    speedup := if 0 < wall then some (seqTime s / wall) else none
    alpha := if seqTime s ≠ 0 then
        min 1 (max 0 (1 - (seqTime s - wall) / seqTime s)) else 1
    critical_path := ((s.timings.map Prod.snd).maximum).unbot' 0
    node_count := s.timings.length
    max_parallelism := s.maxParallelism }

/-- C7: `get_performance_metrics` returns `speedup = sequential/wall`
when `wall > 0` and infinity when `wall = 0`; `alpha` is the clamp of
`1 - time_saved/sequential` to `[0,1]`, defaulting to `1` when the
sequential time is `0`; and `alpha` always lies in `[0,1]`. -/
theorem performance_metrics_speedup_alpha (s : ExecState) (wall : ℚ) :
    (wall = 0 → (getPerformanceMetrics s wall).speedup = none) ∧
    (0 < wall → (getPerformanceMetrics s wall).speedup
        = some (seqTime s / wall)) ∧
    (seqTime s = 0 → (getPerformanceMetrics s wall).alpha = 1) ∧
    (seqTime s ≠ 0 → (getPerformanceMetrics s wall).alpha
        = min 1 (max 0 (1 - (seqTime s - wall) / seqTime s))) ∧
    0 ≤ (getPerformanceMetrics s wall).alpha ∧
    (getPerformanceMetrics s wall).alpha ≤ 1 := by
  unfold getPerformanceMetrics
  dsimp only
  refine ⟨?_, ?_, ?_, ?_, ?_, ?_⟩
  · intro h
    rw [if_neg]
    rw [h]
    exact lt_irrefl 0
  · intro h
    rw [if_pos h]
  · intro h
    rw [if_neg (not_not_intro h)]
  · intro h
    rw [if_pos h]
  · by_cases h : seqTime s ≠ 0
    · rw [if_pos h]
      exact le_min (by norm_num) (le_max_left 0 _)
    · rw [if_neg h]
      norm_num
  · by_cases h : seqTime s ≠ 0
    · rw [if_pos h]
      exact min_le_left 1 _
    · rw [if_neg h]

/-- C7 witness: at the terminal `ppC3` state with wall time 2, speedup is
the finite ratio and alpha lies in `[0,1]`. -/
theorem performance_metrics_speedup_alpha_witness :
    (0 : ℚ) < 2 ∧
    (getPerformanceMetrics sC3 2).speedup = some (seqTime sC3 / 2) ∧
    0 ≤ (getPerformanceMetrics sC3 2).alpha :=
  ⟨by decide, (performance_metrics_speedup_alpha sC3 2).2.1 (by decide),
   (performance_metrics_speedup_alpha sC3 2).2.2.2.2.1⟩
